import Mathlib

/-!
Verification of the version-selector parser and version-update engine of the
`brel` repository (`src/version_selector.rs`, `src/version_update.rs`).

The Rust code is shallowly embedded: strings are processed as `List Char`,
`Result<T>` becomes `Except String T` carrying the error message text,
`serde_json::Value` / `toml::Value` / `toml_edit` items become inductive
trees, the file system becomes an association list from relative path to
content, and the external parsers/serializers (serde_json, toml, toml_edit)
are abstract function parameters.
-/

set_option maxHeartbeats 1000000

namespace Brel

instance {ε α : Type} [DecidableEq ε] [DecidableEq α] : DecidableEq (Except ε α) :=
  fun x y =>
    match x, y with
    | .ok a, .ok b =>
      if h : a = b then isTrue (by rw [h]) else isFalse (by simp [h])
    | .error a, .error b =>
      if h : a = b then isTrue (by rw [h]) else isFalse (by simp [h])
    | .ok _, .error _ => isFalse (by simp)
    | .error _, .ok _ => isFalse (by simp)

/-- Whitespace as trimmed by Rust's `str::trim` (the Unicode `White_Space`
property); the ASCII members are 0x09–0x0D and 0x20. -/
def isTrimWs (c : Char) : Bool :=
  c.val = 0x09 || c.val = 0x0A || c.val = 0x0B || c.val = 0x0C || c.val = 0x0D ||
  c.val = 0x20 || c.val = 0x85 || c.val = 0xA0 || c.val = 0x1680 ||
  (0x2000 ≤ c.val && c.val ≤ 0x200A) || c.val = 0x2028 || c.val = 0x2029 ||
  c.val = 0x202F || c.val = 0x205F || c.val = 0x3000

/-- `str::trim` on a character list: drop whitespace from both ends. -/
def trimList (cs : List Char) : List Char :=
  ((cs.dropWhile isTrimWs).reverse.dropWhile isTrimWs).reverse

/-- `str::trim` on a `String`. -/
def trimStr (s : String) : String :=
  String.mk (trimList s.data)

/-- `SegmentQualifier` from `version_selector.rs`. -/
inductive SegmentQualifier where
  | index (i : Nat)
  | filter (field : String) (value : String)
  deriving DecidableEq, Repr

/-- `SelectorSegment` from `version_selector.rs`. -/
structure SelectorSegment where
  key : String
  qualifier : Option SegmentQualifier
  deriving DecidableEq, Repr

/-- `VersionSelector` from `version_selector.rs`. -/
structure VersionSelector where
  segments : List SelectorSegment
  deriving DecidableEq, Repr

/-- Error-message helper: every selector error is rendered as
`Invalid version selector `<sel>`: <msg>` by the Rust `bail!` calls. -/
def invalidSel (sel msg : String) : String :=
  "Invalid version selector `" ++ sel ++ "`: " ++ msg

/-- `parse_token` from `version_selector.rs`. -/
def parse_token (raw : List Char) (label : String) (sel : String) :
    Except String String :=
  let token := trimList raw
  if token = [] then
    .error (invalidSel sel ("empty " ++ label ++ "."))
  else if token.contains '.' || token.contains '[' || token.contains ']' then
    .error (invalidSel sel (label ++ " `" ++ String.mk token ++
      "` contains an unsupported character."))
  else
    .ok (String.mk token)

/-- `strip_wrapping_quotes` from `version_selector.rs`. -/
def strip_wrapping_quotes (value : List Char) : List Char :=
  if h : 2 ≤ value.length then
    let first := value.head (by intro hv; simp [hv] at h)
    let last := value.getLast (by intro hv; simp [hv] at h)
    if (first = '"' && last = '"') || (first = '\'' && last = '\'') then
      (value.drop 1).dropLast
    else value
  else value

/-- `parse_filter_value` from `version_selector.rs`. -/
def parse_filter_value (raw : List Char) (sel : String) : Except String String :=
  let value := trimList raw
  if value = [] then
    .error (invalidSel sel "empty filter value.")
  else
    let normalized := strip_wrapping_quotes value
    if normalized = [] then
      .error (invalidSel sel "empty filter value.")
    else if normalized.contains '[' || normalized.contains ']' then
      .error (invalidSel sel ("filter value `" ++ String.mk normalized ++
        "` contains an unsupported character."))
    else
      .ok (String.mk normalized)

/-- Rust `str::split_once`: split at the first occurrence of `c`. -/
def splitOnce (c : Char) : List Char → Option (List Char × List Char)
  | [] => none
  | x :: xs =>
    if x = c then some ([], xs)
    else match splitOnce c xs with
      | none => none
      | some (l, r) => some (x :: l, r)

/-- Digit-string value (the `usize` parse of an all-digit string). -/
def natFromDigits (cs : List Char) : Nat :=
  cs.foldl (fun n c => n * 10 + (c.toNat - '0'.toNat)) 0

/-- `usize::MAX + 1` on the (64-bit) platform the code targets. -/
def usizeBound : Nat := 2 ^ 64

/-- `parse_qualifier` from `version_selector.rs`.  The `usize` parse of an
all-digit string fails exactly when the value overflows `usize`. -/
def parse_qualifier (raw : List Char) (sel : String) :
    Except String SegmentQualifier :=
  let qualifier := trimList raw
  if qualifier = [] then
    .error (invalidSel sel "empty segment qualifier.")
  else if qualifier.all Char.isDigit then
    if natFromDigits qualifier < usizeBound then
      .ok (.index (natFromDigits qualifier))
    else
      .error (invalidSel sel "invalid array index.")
  else
    match splitOnce '=' qualifier with
    | none =>
      .error (invalidSel sel ("qualifier `" ++ String.mk qualifier ++
        "` must be either an array index or `field=value`."))
    | some (fieldRaw, valueRaw) =>
      match parse_token fieldRaw "filter field" sel with
      | .error e => .error e
      | .ok field =>
        match parse_filter_value valueRaw sel with
        | .error e => .error e
        | .ok value => .ok (.filter field value)

/-- `parse_segment` from `version_selector.rs`.  The first `[` is located by
splitting the segment at it. -/
def parse_segment (rawSegment : List Char) (sel : String) :
    Except String SelectorSegment :=
  let segment := trimList rawSegment
  if segment = [] then
    .error (invalidSel sel "empty path segment.")
  else
    let keyPart := segment.takeWhile (· ≠ '[')
    let rest := segment.dropWhile (· ≠ '[')
    match rest with
    | [] =>
      match parse_token segment "segment key" sel with
      | .error e => .error e
      | .ok key => .ok { key := key, qualifier := none }
    | _ :: tail =>
      if segment.getLast? ≠ some ']' then
        .error (invalidSel sel ("segment `" ++ String.mk segment ++
          "` must end with `]` when using a qualifier."))
      else
        match parse_token keyPart "segment key" sel with
        | .error e => .error e
        | .ok key =>
          match parse_qualifier tail.dropLast sel with
          | .error e => .error e
          | .ok qualifier => .ok { key := key, qualifier := some qualifier }

/-- The character loop of `parse_selector`: walk the trimmed selector,
tracking the single `in_brackets` flag, emitting a segment at every
top-level `.`, exactly as the Rust loop over `char_indices` does. -/
def parseSelectorAux (sel : String) :
    List Char → List Char → Bool → List SelectorSegment →
    Except String (List SelectorSegment)
  | [], acc, inBrackets, segs =>
    if inBrackets then
      .error (invalidSel sel "unmatched `[`.")
    else
      match parse_segment acc.reverse sel with
      | .error e => .error e
      | .ok s => .ok (segs ++ [s])
  | c :: cs, acc, inBrackets, segs =>
    if c = '[' then
      if inBrackets then
        .error (invalidSel sel "nested `[` is not supported.")
      else
        parseSelectorAux sel cs (c :: acc) true segs
    else if c = ']' then
      if !inBrackets then
        .error (invalidSel sel "unmatched `]`.")
      else
        parseSelectorAux sel cs (c :: acc) false segs
    else if c = '.' && !inBrackets then
      match parse_segment acc.reverse sel with
      | .error e => .error e
      | .ok s => parseSelectorAux sel cs [] inBrackets (segs ++ [s])
    else
      parseSelectorAux sel cs (c :: acc) inBrackets segs

/-- `parse_selector` from `version_selector.rs`. -/
def parse_selector (value : String) : Except String VersionSelector :=
  let trimmed := trimList value.data
  if trimmed = [] then
    .error "Version selector cannot be empty."
  else
    match parseSelectorAux (String.mk trimmed) trimmed [] false [] with
    | .error e => .error e
    | .ok segs => .ok { segments := segs }

/-! ## Document models (`serde_json::Value`, `toml::Value`) -/

/-- `serde_json::Value`.  Objects are association lists with unique keys
(the `serde_json::Map`); numbers are kept abstract as integers since the
resolver only ever asks `as_str`. -/
inductive Json where
  | null
  | bool (b : Bool)
  | num (n : Int)
  | str (s : String)
  | arr (elems : List Json)
  | obj (fields : List (String × Json))
  deriving Repr

/-- `toml::Value`.  Float and datetime payloads are irrelevant to the
resolver (only `as_str`, `as_array`, `as_table` are consulted). -/
inductive Toml where
  | str (s : String)
  | int (n : Int)
  | float
  | bool (b : Bool)
  | datetime (s : String)
  | arr (elems : List Toml)
  | table (fields : List (String × Toml))
  deriving Repr

/-- First-occurrence lookup in an association list (map `get`). -/
def assocGet {α : Type} (l : List (String × α)) (k : String) : Option α :=
  match l with
  | [] => none
  | (k', v) :: rest => if k' = k then some v else assocGet rest k

/-- Replace the value at the first occurrence of `k` (map `get_mut` + write). -/
def assocSet {α : Type} (l : List (String × α)) (k : String) (v : α) :
    List (String × α) :=
  match l with
  | [] => []
  | (k', v') :: rest =>
    if k' = k then (k', v) :: rest else (k', v') :: assocSet rest k v

def Json.asObj : Json → Option (List (String × Json))
  | .obj fields => some fields
  | _ => none

def Json.asArr : Json → Option (List Json)
  | .arr elems => some elems
  | _ => none

def Json.asStr : Json → Option String
  | .str s => some s
  | _ => none

def Toml.asTable : Toml → Option (List (String × Toml))
  | .table fields => some fields
  | _ => none

def Toml.asArr : Toml → Option (List Toml)
  | .arr elems => some elems
  | _ => none

def Toml.asStr : Toml → Option String
  | .str s => some s
  | _ => none

/-- `PathStep` from `version_update.rs`; `derive(PartialOrd, Ord)` orders
`Key` before `Index`, keys bytewise, indices numerically. -/
inductive PathStep where
  | key (s : String)
  | index (i : Nat)
  deriving DecidableEq, Repr

/-- The derived Rust `Ord` on `PathStep` as a strict-less Boolean test. -/
def PathStep.ltb : PathStep → PathStep → Bool
  | .key a, .key b => decide (a < b)
  | .key _, .index _ => true
  | .index _, .key _ => false
  | .index a, .index b => decide (a < b)

/-- The derived Rust `Ord` on `Vec<PathStep>` (lexicographic). -/
def pathLtb : List PathStep → List PathStep → Bool
  | [], [] => false
  | [], _ :: _ => true
  | _ :: _, [] => false
  | a :: as', b :: bs => if a = b then pathLtb as' bs else PathStep.ltb a b

/-- `BTreeSet::insert` on the sorted, duplicate-free list of paths. -/
def insertPath (p : List PathStep) : List (List PathStep) → List (List PathStep)
  | [] => [p]
  | q :: rest =>
    if p = q then q :: rest
    else if pathLtb p q then p :: q :: rest
    else q :: insertPath p rest

/-! ## JSON path resolution (`resolve_json_paths`) -/

/-- `json_value_at_path` from `version_update.rs`. -/
def json_value_at_path : Json → List PathStep → Option Json
  | v, [] => some v
  | v, .key k :: rest =>
    match v.asObj with
    | none => none
    | some fields =>
      match assocGet fields k with
      | none => none
      | some child => json_value_at_path child rest
  | v, .index i :: rest =>
    match v.asArr with
    | none => none
    | some elems =>
      match elems[i]? with
      | none => none
      | some child => json_value_at_path child rest

def expectsArrayMsg (selText key fileP : String) : String :=
  "Selector `" ++ selText ++ "` expects segment `" ++ key ++
  "` to be an array in `" ++ fileP ++ "`."

def expectsObjectsMsg (selText key fileP : String) : String :=
  "Selector `" ++ selText ++ "` expects all elements under `" ++ key ++
  "` to be JSON objects in `" ++ fileP ++ "`."

def expectsTablesMsg (selText key fileP : String) : String :=
  "Selector `" ++ selText ++ "` expects all elements under `" ++ key ++
  "` to be TOML tables in `" ++ fileP ++ "`."

def fieldStringMsg (selText field fileP : String) : String :=
  "Selector `" ++ selText ++ "` expects filter field `" ++ field ++
  "` to be a string in `" ++ fileP ++ "`."

def noMatchMsg (selText fileP : String) : String :=
  "Selector `" ++ selText ++ "` matched no values in `" ++ fileP ++ "`."

/-- The `Filter` arm of the JSON resolver: scan the array elements in order
(`idx` is the index of the first element of `elems` in the whole array),
erroring on a non-object element or a present non-string field, skipping
elements lacking the field, and collecting `childPath + Index i` for every
match. -/
def jsonFilterScan (selText fileP segKey field value : String)
    (childPath : List PathStep) :
    List Json → Nat → Except String (List (List PathStep))
  | [], _ => .ok []
  | e :: rest, idx =>
    match e.asObj with
    | none => .error (expectsObjectsMsg selText segKey fileP)
    | some fields =>
      match assocGet fields field with
      | none => jsonFilterScan selText fileP segKey field value childPath rest (idx + 1)
      | some fv =>
        match fv.asStr with
        | none => .error (fieldStringMsg selText field fileP)
        | some actual =>
          if actual = value then
            match jsonFilterScan selText fileP segKey field value childPath
              rest (idx + 1) with
            | .error e => .error e
            | .ok others => .ok ((childPath ++ [.index idx]) :: others)
          else
            jsonFilterScan selText fileP segKey field value childPath rest (idx + 1)

/-- The body of the `for current_path in &current_paths` loop of
`resolve_json_paths` for one frontier path `p`: the (ordered) list of paths
this branch contributes to the next frontier, or a type-mismatch error. -/
def jsonStepOne (root : Json) (selText fileP : String) (seg : SelectorSegment)
    (p : List PathStep) : Except String (List (List PathStep)) :=
  match json_value_at_path root p with
  | none => .ok []
  | some node =>
    match node.asObj with
    | none => .ok []
    | some fields =>
      match assocGet fields seg.key with
      | none => .ok []
      | some child =>
        let childPath := p ++ [PathStep.key seg.key]
        match seg.qualifier with
        | none => .ok [childPath]
        | some (.index i) =>
          match child.asArr with
          | none => .error (expectsArrayMsg selText seg.key fileP)
          | some elems =>
            if i < elems.length then .ok [childPath ++ [.index i]] else .ok []
        | some (.filter field value) =>
          match child.asArr with
          | none => .error (expectsArrayMsg selText seg.key fileP)
          | some elems =>
            jsonFilterScan selText fileP seg.key field value childPath elems 0

/-- One segment of `resolve_json_paths`: fold all frontier paths,
accumulating contributions into the `BTreeSet` `acc`. -/
def jsonSegmentStep (root : Json) (selText fileP : String)
    (seg : SelectorSegment) :
    List (List PathStep) → List (List PathStep) →
    Except String (List (List PathStep))
  | [], acc => .ok acc
  | p :: ps, acc =>
    match jsonStepOne root selText fileP seg p with
    | .error e => .error e
    | .ok contrib =>
      jsonSegmentStep root selText fileP seg ps (contrib.foldl (fun a c => insertPath c a) acc)

/-- The segment loop of `resolve_json_paths`. -/
def resolveJsonFrontier (root : Json) (selText fileP : String) :
    List SelectorSegment → List (List PathStep) →
    Except String (List (List PathStep))
  | [], paths => .ok paths
  | seg :: rest, paths =>
    match jsonSegmentStep root selText fileP seg paths [] with
    | .error e => .error e
    | .ok next => resolveJsonFrontier root selText fileP rest next

/-- `resolve_json_paths` from `version_update.rs`. -/
def resolve_json_paths (root : Json) (selText : String)
    (selector : VersionSelector) (fileP : String) :
    Except String (List (List PathStep)) :=
  match resolveJsonFrontier root selText fileP selector.segments [[]] with
  | .error e => .error e
  | .ok frontier =>
    if frontier = [] then
      .error (noMatchMsg selText fileP)
    else
      .ok frontier

/-! ## JSON mutation (`set_json_string_at_path`, `update_json_file`) -/

def internalErrMsg (selText fileP : String) : String :=
  "Internal selector path resolution error for `" ++ selText ++ "` in `" ++
  fileP ++ "`."

def nonStringJsonMsg (selText fileP : String) : String :=
  "Selector `" ++ selText ++ "` matched a non-string JSON value in `" ++
  fileP ++ "`."

def nonStringTomlMsg (selText fileP : String) : String :=
  "Selector `" ++ selText ++ "` matched a non-string TOML value in `" ++
  fileP ++ "`."

/-- `set_json_string_at_path` from `version_update.rs`, returning the changed
flag together with the (functionally) mutated tree. -/
def set_json_string_at_path (root : Json) (path : List PathStep)
    (nextVersion selText fileP : String) : Except String (Bool × Json) :=
  match path with
  | [] =>
    match root.asStr with
    | none => .error (nonStringJsonMsg selText fileP)
    | some existing =>
      if existing = nextVersion then .ok (false, root)
      else .ok (true, .str nextVersion)
  | .key k :: rest =>
    match root.asObj with
    | none => .error (internalErrMsg selText fileP)
    | some fields =>
      match assocGet fields k with
      | none => .error (internalErrMsg selText fileP)
      | some child =>
        match set_json_string_at_path child rest nextVersion selText fileP with
        | .error e => .error e
        | .ok (c, child') => .ok (c, .obj (assocSet fields k child'))
  | .index i :: rest =>
    match root.asArr with
    | none => .error (internalErrMsg selText fileP)
    | some elems =>
      match elems[i]? with
      | none => .error (internalErrMsg selText fileP)
      | some child =>
        match set_json_string_at_path child rest nextVersion selText fileP with
        | .error e => .error e
        | .ok (c, child') => .ok (c, .arr (elems.set i child'))

/-- `anyhow` context layering, flattened to a message prefix. -/
def withCtx (ctx cause : String) : String := ctx ++ " " ++ cause

def whileUpdatingMsg (selText fileP : String) : String :=
  "While updating selector `" ++ selText ++ "` in `" ++ fileP ++ "`."

/-- The `for path in &target_paths` loop of `update_json_file`. -/
def applyJsonPaths (root : Json) (paths : List (List PathStep))
    (nextVersion selText fileP : String) (changed : Bool) :
    Except String (Bool × Json) :=
  match paths with
  | [] => .ok (changed, root)
  | p :: rest =>
    match set_json_string_at_path root p nextVersion selText fileP with
    | .error e => .error (withCtx (whileUpdatingMsg selText fileP) e)
    | .ok (c, root') =>
      applyJsonPaths root' rest nextVersion selText fileP (changed || c)

/-- The `for (selector_text, selector) in selectors` loop of
`update_json_file`: each selector is resolved against the current (already
partially mutated) tree, then applied at every resolved path. -/
def updateJsonSelectors (root : Json)
    (selectors : List (String × VersionSelector))
    (nextVersion fileP : String) (changed : Bool) :
    Except String (Bool × Json) :=
  match selectors with
  | [] => .ok (changed, root)
  | (selText, selector) :: rest =>
    match resolve_json_paths root selText selector fileP with
    | .error e => .error e
    | .ok paths =>
      match applyJsonPaths root paths nextVersion selText fileP changed with
      | .error e => .error e
      | .ok (changed', root') =>
        updateJsonSelectors root' rest nextVersion fileP changed'

/-- `update_json_file` from `version_update.rs`, with serde_json's parser
and pretty-printer abstracted (`parseJson`, `printJson`).  Returns `none`
when nothing changed (no write) and `some output` for the bytes written. -/
def update_json_file (parseJson : String → Option Json)
    (printJson : Json → String) (fileP content : String)
    (selectors : List (String × VersionSelector)) (nextVersion : String) :
    Except String (Option String) :=
  match parseJson content with
  | none => .error ("Failed to parse JSON file `" ++ fileP ++ "`.")
  | some value =>
    match updateJsonSelectors value selectors nextVersion fileP false with
    | .error e => .error e
    | .ok (changed, value') =>
      if changed then .ok (some (printJson value' ++ "\n")) else .ok none

/-! ## TOML path resolution (`resolve_toml_paths`) -/

/-- `toml_value_at_path` from `version_update.rs`. -/
def toml_value_at_path : Toml → List PathStep → Option Toml
  | v, [] => some v
  | v, .key k :: rest =>
    match v.asTable with
    | none => none
    | some fields =>
      match assocGet fields k with
      | none => none
      | some child => toml_value_at_path child rest
  | v, .index i :: rest =>
    match v.asArr with
    | none => none
    | some elems =>
      match elems[i]? with
      | none => none
      | some child => toml_value_at_path child rest

/-- The `Filter` arm of the TOML resolver (mirror of `jsonFilterScan`). -/
def tomlFilterScan (selText fileP segKey field value : String)
    (childPath : List PathStep) :
    List Toml → Nat → Except String (List (List PathStep))
  | [], _ => .ok []
  | e :: rest, idx =>
    match e.asTable with
    | none => .error (expectsTablesMsg selText segKey fileP)
    | some fields =>
      match assocGet fields field with
      | none => tomlFilterScan selText fileP segKey field value childPath rest (idx + 1)
      | some fv =>
        match fv.asStr with
        | none => .error (fieldStringMsg selText field fileP)
        | some actual =>
          if actual = value then
            match tomlFilterScan selText fileP segKey field value childPath
              rest (idx + 1) with
            | .error e => .error e
            | .ok others => .ok ((childPath ++ [.index idx]) :: others)
          else
            tomlFilterScan selText fileP segKey field value childPath rest (idx + 1)

/-- One frontier path of one segment of `resolve_toml_paths`. -/
def tomlStepOne (root : Toml) (selText fileP : String) (seg : SelectorSegment)
    (p : List PathStep) : Except String (List (List PathStep)) :=
  match toml_value_at_path root p with
  | none => .ok []
  | some node =>
    match node.asTable with
    | none => .ok []
    | some fields =>
      match assocGet fields seg.key with
      | none => .ok []
      | some child =>
        let childPath := p ++ [PathStep.key seg.key]
        match seg.qualifier with
        | none => .ok [childPath]
        | some (.index i) =>
          match child.asArr with
          | none => .error (expectsArrayMsg selText seg.key fileP)
          | some elems =>
            if i < elems.length then .ok [childPath ++ [.index i]] else .ok []
        | some (.filter field value) =>
          match child.asArr with
          | none => .error (expectsArrayMsg selText seg.key fileP)
          | some elems =>
            tomlFilterScan selText fileP seg.key field value childPath elems 0

/-- One segment of `resolve_toml_paths`. -/
def tomlSegmentStep (root : Toml) (selText fileP : String)
    (seg : SelectorSegment) :
    List (List PathStep) → List (List PathStep) →
    Except String (List (List PathStep))
  | [], acc => .ok acc
  | p :: ps, acc =>
    match tomlStepOne root selText fileP seg p with
    | .error e => .error e
    | .ok contrib =>
      tomlSegmentStep root selText fileP seg ps (contrib.foldl (fun a c => insertPath c a) acc)

/-- The segment loop of `resolve_toml_paths`. -/
def resolveTomlFrontier (root : Toml) (selText fileP : String) :
    List SelectorSegment → List (List PathStep) →
    Except String (List (List PathStep))
  | [], paths => .ok paths
  | seg :: rest, paths =>
    match tomlSegmentStep root selText fileP seg paths [] with
    | .error e => .error e
    | .ok next => resolveTomlFrontier root selText fileP rest next

/-- `resolve_toml_paths` from `version_update.rs`. -/
def resolve_toml_paths (root : Toml) (selText : String)
    (selector : VersionSelector) (fileP : String) :
    Except String (List (List PathStep)) :=
  match resolveTomlFrontier root selText fileP selector.segments [[]] with
  | .error e => .error e
  | .ok frontier =>
    if frontier = [] then
      .error (noMatchMsg selText fileP)
    else
      .ok frontier

/-! ## The syntax-aware TOML tree (`toml_edit`) and its mutators -/

/-- `toml_edit::Value`.  Decorations (whitespace, comments) are byte-level
data the mutation logic never branches on; they are omitted, which is why
`printTomlEdit` below stays an abstract parameter instead of a function
defined here. -/
inductive TEValue where
  | str (s : String)
  | int (n : Int)
  | float
  | bool (b : Bool)
  | datetime (s : String)
  | arr (elems : List TEValue)
  | inlineTable (fields : List (String × TEValue))
  deriving Repr

def TEValue.asStr : TEValue → Option String
  | .str s => some s
  | _ => none

/-- `toml_edit::Item`.  A `Table` is its list of key/item entries; an
`ArrayOfTables` is a list of such tables. -/
inductive TEItem where
  | none
  | value (v : TEValue)
  | table (fields : List (String × TEItem))
  | arrayOfTables (tables : List (List (String × TEItem)))
  deriving Repr

/-- `set_toml_string_in_value` from `version_update.rs`. -/
def set_toml_string_in_value (value : TEValue) (path : List PathStep)
    (nextVersion selText fileP : String) : Except String (Bool × TEValue) :=
  match path with
  | [] =>
    match value.asStr with
    | Option.none => .error (nonStringTomlMsg selText fileP)
    | Option.some existing =>
      if existing = nextVersion then .ok (false, value)
      else .ok (true, .str nextVersion)
  | .key k :: rest =>
    match value with
    | .inlineTable fields =>
      match assocGet fields k with
      | Option.none => .error (internalErrMsg selText fileP)
      | Option.some child =>
        match set_toml_string_in_value child rest nextVersion selText fileP with
        | .error e => .error e
        | .ok (c, child') => .ok (c, .inlineTable (assocSet fields k child'))
    | _ => .error (internalErrMsg selText fileP)
  | .index i :: rest =>
    match value with
    | .arr elems =>
      match elems[i]? with
      | Option.none => .error (internalErrMsg selText fileP)
      | Option.some child =>
        match set_toml_string_in_value child rest nextVersion selText fileP with
        | .error e => .error e
        | .ok (c, child') => .ok (c, .arr (elems.set i child'))
    | _ => .error (internalErrMsg selText fileP)

mutual

/-- `set_toml_string_in_item` from `version_update.rs`. -/
def set_toml_string_in_item (item : TEItem) (path : List PathStep)
    (nextVersion selText fileP : String) : Except String (Bool × TEItem) :=
  match path with
  | [] =>
    match item with
    | .value v =>
      match set_toml_string_in_value v [] nextVersion selText fileP with
      | .error e => .error e
      | .ok (c, v') => .ok (c, .value v')
    | _ => .error (nonStringTomlMsg selText fileP)
  | .key k :: rest =>
    match item with
    | .table fields =>
      match assocGet fields k with
      | Option.none => .error (internalErrMsg selText fileP)
      | Option.some child =>
        match set_toml_string_in_item child rest nextVersion selText fileP with
        | .error e => .error e
        | .ok (c, child') => .ok (c, .table (assocSet fields k child'))
    | .value (.inlineTable fields) =>
      match assocGet fields k with
      | Option.none => .error (internalErrMsg selText fileP)
      | Option.some child =>
        match set_toml_string_in_value child rest nextVersion selText fileP with
        | .error e => .error e
        | .ok (c, child') => .ok (c, .value (.inlineTable (assocSet fields k child')))
    | _ => .error (internalErrMsg selText fileP)
  | .index i :: rest =>
    match item with
    | .arrayOfTables tables =>
      match tables[i]? with
      | Option.none => .error (internalErrMsg selText fileP)
      | Option.some child =>
        match set_toml_string_in_table child rest nextVersion selText fileP with
        | .error e => .error e
        | .ok (c, child') => .ok (c, .arrayOfTables (tables.set i child'))
    | .value (.arr elems) =>
      match elems[i]? with
      | Option.none => .error (internalErrMsg selText fileP)
      | Option.some child =>
        match set_toml_string_in_value child rest nextVersion selText fileP with
        | .error e => .error e
        | .ok (c, child') => .ok (c, .value (.arr (elems.set i child')))
    | _ => .error (internalErrMsg selText fileP)

/-- `set_toml_string_in_table` from `version_update.rs`. -/
def set_toml_string_in_table (fields : List (String × TEItem))
    (path : List PathStep) (nextVersion selText fileP : String) :
    Except String (Bool × List (String × TEItem)) :=
  match path with
  | [] => .error (nonStringTomlMsg selText fileP)
  | .key k :: rest =>
    match assocGet fields k with
    | Option.none => .error (internalErrMsg selText fileP)
    | Option.some child =>
      match set_toml_string_in_item child rest nextVersion selText fileP with
      | .error e => .error e
      | .ok (c, child') => .ok (c, assocSet fields k child')
  | .index _ :: _ => .error (internalErrMsg selText fileP)

end

/-- `set_toml_string_at_path` from `version_update.rs` (the document root is
`document.as_item_mut()`, a `Table` item). -/
def set_toml_string_at_path (root : TEItem) (path : List PathStep)
    (nextVersion selText fileP : String) : Except String (Bool × TEItem) :=
  set_toml_string_in_item root path nextVersion selText fileP

/-- The `for path in &target_paths` loop of `update_toml_file`. -/
def applyTomlPaths (doc : TEItem) (paths : List (List PathStep))
    (nextVersion selText fileP : String) (changed : Bool) :
    Except String (Bool × TEItem) :=
  match paths with
  | [] => .ok (changed, doc)
  | p :: rest =>
    match set_toml_string_at_path doc p nextVersion selText fileP with
    | .error e => .error (withCtx (whileUpdatingMsg selText fileP) e)
    | .ok (c, doc') =>
      applyTomlPaths doc' rest nextVersion selText fileP (changed || c)

/-- The selector loop of `update_toml_file`: in contrast to JSON, every
selector is resolved against the pristine `source_value` parse while
mutations accumulate on the `toml_edit` document. -/
def updateTomlSelectors (source : Toml) (doc : TEItem)
    (selectors : List (String × VersionSelector))
    (nextVersion fileP : String) (changed : Bool) :
    Except String (Bool × TEItem) :=
  match selectors with
  | [] => .ok (changed, doc)
  | (selText, selector) :: rest =>
    match resolve_toml_paths source selText selector fileP with
    | .error e => .error e
    | .ok paths =>
      match applyTomlPaths doc paths nextVersion selText fileP changed with
      | .error e => .error e
      | .ok (changed', doc') =>
        updateTomlSelectors source doc' rest nextVersion fileP changed'

/-- `output.push('\n')` only when the serialized document lacks one. -/
def ensureTrailingNewline (s : String) : String :=
  if s.data.getLast? = some '\n' then s else s ++ "\n"

/-- `update_toml_file` from `version_update.rs`, with the `toml` and
`toml_edit` parsers and the `toml_edit` serializer abstracted. -/
def update_toml_file (parseToml : String → Option Toml)
    (parseTomlEdit : String → Option TEItem) (printTomlEdit : TEItem → String)
    (fileP content : String) (selectors : List (String × VersionSelector))
    (nextVersion : String) : Except String (Option String) :=
  match parseToml content with
  | Option.none => .error ("Failed to parse TOML file `" ++ fileP ++ "`.")
  | Option.some sourceValue =>
    match parseTomlEdit content with
    | Option.none => .error ("Failed to parse TOML file `" ++ fileP ++ "`.")
    | Option.some doc =>
      match updateTomlSelectors sourceValue doc selectors nextVersion fileP false with
      | .error e => .error e
      | .ok (changed, doc') =>
        if changed then .ok (some (ensureTrailingNewline (printTomlEdit doc')))
        else .ok none

/-! ## Orchestrator (`apply_version_updates`) -/

/-- `VersionFileFormat` from `config.rs`. -/
inductive VersionFileFormat where
  | json
  | toml
  deriving DecidableEq, Repr

/-- The external document codecs (serde_json, toml, toml_edit) that
`version_update.rs` calls into; abstracted as function parameters. -/
structure Codecs where
  parseJson : String → Option Json
  printJson : Json → String
  parseToml : String → Option Toml
  parseTomlEdit : String → Option TEItem
  printTomlEdit : TEItem → String

/-- The repository working tree restricted to the configured relative paths:
an association list from relative path to file content. -/
abbrev FS : Type := List (String × String)

def fsGet (fs : FS) (path : String) : Option String := assocGet fs path

/-- `fs::write`: overwrite an existing entry (or create the file). -/
def fsWrite (fs : FS) (path content : String) : FS :=
  match fsGet fs path with
  | some _ => assocSet fs path content
  | none => fs ++ [(path, content)]

/-- ASCII lowercasing (`str::to_ascii_lowercase`). -/
def asciiLower (s : String) : String :=
  String.mk (s.data.map fun c =>
    if 'A' ≤ c ∧ c ≤ 'Z' then Char.ofNat (c.toNat + 32) else c)

/-- `Path::extension` for the relative paths at hand: the part of the last
`/`-component after its final `.`, absent when there is no `.` or when the
only `.` leads the component (a hidden file). -/
def pathExtension (p : String) : Option String :=
  let name := p.data.foldl (fun acc c => if c = '/' then [] else acc ++ [c]) []
  let (revExt, rest) := name.reverse.span (· ≠ '.')
  match rest with
  | [] => none
  | _ :: revStem => if revStem = [] then none else some (String.mk revExt.reverse)

/-- `detect_file_format` from `version_update.rs`. -/
def detect_file_format (relativePath : String)
    (overrideFormat : Option VersionFileFormat) :
    Except String VersionFileFormat :=
  match overrideFormat with
  | some explicit => .ok explicit
  | none =>
    match (pathExtension relativePath).map asciiLower with
    | some "json" => .ok .json
    | some "toml" => .ok .toml
    | _ => .error ("Cannot infer file format for `" ++ relativePath ++
        "`. Use `release_pr.format_overrides` with `json` or `toml`.")

/-- `parse_selectors` from `version_update.rs`. -/
def parse_selectors (selectors : List String) (fileP : String) :
    Except String (List (String × VersionSelector)) :=
  match selectors with
  | [] => .ok []
  | raw :: rest =>
    let selText := trimStr raw
    match parse_selector selText with
    | .error e =>
      .error (withCtx ("Invalid version selector `" ++ selText ++
        "` while updating `" ++ fileP ++ "`.") e)
    | .ok selector =>
      match parse_selectors rest fileP with
      | .error e => .error e
      | .ok parsed => .ok ((selText, selector) :: parsed)

/-- The body of the per-file loop of `apply_version_updates`: returns the
file system after processing this file together with the changed flag (or
the error).  `fs` is only written when the update function produced output;
the repository-root join is dropped since the file system is keyed by
relative path. -/
def processFile (E : Codecs) (fs : FS) (nextVersion : String)
    (overrides : List (String × VersionFileFormat))
    (relativePath : String) (selectors : List String) :
    FS × Except String Bool :=
  match fsGet fs relativePath with
  | none =>
    (fs, .error ("Configured version update file `" ++ relativePath ++
      "` was not found."))
  | some content =>
    match detect_file_format relativePath (assocGet overrides relativePath) with
    | .error e => (fs, .error e)
    | .ok format =>
      match parse_selectors selectors relativePath with
      | .error e => (fs, .error e)
      | .ok parsed =>
        let result :=
          match format with
          | .json =>
            update_json_file E.parseJson E.printJson relativePath content
              parsed nextVersion
          | .toml =>
            update_toml_file E.parseToml E.parseTomlEdit E.printTomlEdit
              relativePath content parsed nextVersion
        match result with
        | .error e => (fs, .error e)
        | .ok none => (fs, .ok false)
        | .ok (some output) => (fsWrite fs relativePath output, .ok true)

/-- The `for (relative_path, selectors) in version_updates` loop, threading
the file-system state; the first error stops the iteration with the state
reached so far (earlier writes persist). -/
def applyFilesAux (E : Codecs) (nextVersion : String)
    (overrides : List (String × VersionFileFormat)) :
    FS → List (String × List String) → FS × Except String (List String)
  | fs, [] => (fs, .ok [])
  | fs, (relativePath, selectors) :: rest =>
    match processFile E fs nextVersion overrides relativePath selectors with
    | (fs', .error e) => (fs', .error e)
    | (fs', .ok changed) =>
      match applyFilesAux E nextVersion overrides fs' rest with
      | (fs'', .error e) => (fs'', .error e)
      | (fs'', .ok changedRest) =>
        (fs'', .ok (if changed then relativePath :: changedRest else changedRest))

/-- Insertion into a list sorted by key (ascending). -/
def insertByKey (x : String × List String) :
    List (String × List String) → List (String × List String)
  | [] => [x]
  | y :: ys => if x.1 ≤ y.1 then x :: y :: ys else y :: insertByKey x ys

/-- `BTreeMap` iteration order: the configured files sorted by relative
path. -/
def sortByKey (l : List (String × List String)) : List (String × List String) :=
  l.foldr insertByKey []

/-- `apply_version_updates` from `version_update.rs`: the `version_updates`
`BTreeMap` is modelled as a key-sorted association list, so the file loop
runs in lexicographic order of relative path.  Returns the final file
system alongside the report (`changed_files` in iteration order) or the
first error. -/
def apply_version_updates (E : Codecs) (fs : FS) (nextVersion : String)
    (version_updates : List (String × List String))
    (overrides : List (String × VersionFileFormat)) :
    FS × Except String (List String) :=
  applyFilesAux E nextVersion overrides fs (sortByKey version_updates)

/-! ## Helper lemmas -/

theorem assocGet_set_eq {α : Type} {l : List (String × α)} {k : String}
    (w : α) (h : (assocGet l k).isSome) :
    assocGet (assocSet l k w) k = some w := by
  induction l with
  | nil => simp [assocGet] at h
  | cons hd tl ih =>
    obtain ⟨k', v'⟩ := hd
    by_cases hk : k' = k
    · simp [assocGet, assocSet, hk]
    · simp only [assocGet, assocSet, if_neg hk] at h ⊢
      exact ih h

theorem assocGet_set_ne {α : Type} {l : List (String × α)} {k k' : String}
    {w : α} (h : k ≠ k') :
    assocGet (assocSet l k w) k' = assocGet l k' := by
  induction l with
  | nil => simp [assocGet, assocSet]
  | cons hd tl ih =>
    obtain ⟨k₀, v₀⟩ := hd
    by_cases hk : k₀ = k
    · subst hk
      simp [assocGet, assocSet, if_neg h]
    · simp only [assocSet, if_neg hk, assocGet]
      by_cases hk' : k₀ = k'
      · simp [hk']
      · simp [if_neg hk', ih]

theorem assocSet_self {α : Type} {l : List (String × α)} {k : String} {v : α}
    (h : assocGet l k = some v) : assocSet l k v = l := by
  induction l with
  | nil => simp [assocSet]
  | cons hd tl ih =>
    obtain ⟨k₀, v₀⟩ := hd
    by_cases hk : k₀ = k
    · simp only [assocGet, if_pos hk] at h
      obtain rfl : v₀ = v := by injection h
      simp [assocSet, if_pos hk]
    · simp only [assocGet, if_neg hk] at h
      simp [assocSet, if_neg hk, ih h]

theorem assocGet_append_right {α : Type} {l l' : List (String × α)}
    {k : String} (h : assocGet l k = none) :
    assocGet (l ++ l') k = assocGet l' k := by
  induction l with
  | nil => simp
  | cons hd tl ih =>
    obtain ⟨k₀, v₀⟩ := hd
    by_cases hk : k₀ = k
    · simp [assocGet, if_pos hk] at h
    · simp only [assocGet, if_neg hk] at h
      simpa [assocGet, if_neg hk] using ih h

theorem listSet_self {α : Type} {l : List α} {i : Nat} {x : α}
    (h : l[i]? = some x) : l.set i x = l := by
  induction l generalizing i with
  | nil => simp at h
  | cons hd tl ih =>
    cases i with
    | zero => simp at h; simp [h]
    | succ n =>
      simp only [List.getElem?_cons_succ] at h
      simp [List.set_cons_succ, ih h]

theorem assocGet_append_left {α : Type} {l l' : List (String × α)}
    {k : String} {v : α} (h : assocGet l k = some v) :
    assocGet (l ++ l') k = some v := by
  induction l with
  | nil => simp [assocGet] at h
  | cons hd tl ih =>
    obtain ⟨k₀, v₀⟩ := hd
    by_cases hk : k₀ = k
    · simp only [assocGet, if_pos hk] at h
      simp [assocGet, if_pos hk, h]
    · simp only [assocGet, if_neg hk] at h ⊢
      exact ih h

theorem fsGet_fsWrite_ne {fs : FS} {p q content : String} (h : p ≠ q) :
    fsGet (fsWrite fs p content) q = fsGet fs q := by
  unfold fsWrite
  cases hg : fsGet fs p with
  | some c =>
    simp only
    exact assocGet_set_ne h
  | none =>
    simp only
    unfold fsGet
    cases hq : assocGet fs q with
    | some c => exact assocGet_append_left hq
    | none =>
      rw [assocGet_append_right hq]
      simp [assocGet, if_neg h]

/-- A value of `Except` is an error. -/
def isError {α : Type} : Except String α → Prop := fun r => ∃ e, r = .error e

theorem splitOnce_eq_none {c : Char} {l : List Char} (h : c ∉ l) :
    splitOnce c l = none := by
  induction l with
  | nil => rfl
  | cons x xs ih =>
    simp only [List.mem_cons, not_or] at h
    have hxc : ¬ x = c := fun hx => h.1 hx.symm
    simp [splitOnce, if_neg hxc, ih h.2]

theorem splitOnce_append {c : Char} {f rest : List Char} (h : c ∉ f) :
    splitOnce c (f ++ c :: rest) = some (f, rest) := by
  induction f with
  | nil => simp [splitOnce]
  | cons x xs ih =>
    simp only [List.mem_cons, not_or] at h
    have hxc : ¬ x = c := fun hx => h.1 hx.symm
    simp [splitOnce, if_neg hxc, ih h.2]

/-! ## Claim C7 -/

/-- C7 counterexample: the qualifier `name=a=b` contains two `=` characters
yet `parse_selector` accepts it as a `Filter` (splitting at the first `=`),
refuting the claim that a non-digit qualifier with more than one `=` is a
syntax error. -/
theorem two_equals_qualifier_parses_as_filter :
    parse_selector "pkg[name=a=b]" =
      .ok { segments :=
        [{ key := "pkg", qualifier := some (.filter "name" "a=b") }] } := by
  decide

/-- C7 (amended): a non-digit bracketed qualifier with no `=` at all fails
with the "must be either an array index or `field=value`" syntax error; one
containing at least one `=` is split at the FIRST `=` into field and value
(so the value may itself contain further `=` characters) and parsed as a
`Filter` from those two parts. -/
theorem parse_qualifier_split_at_first_equals :
    (∀ (raw : List Char) (sel : String),
      trimList raw ≠ [] → ¬ (trimList raw).all Char.isDigit →
      '=' ∉ trimList raw →
      parse_qualifier raw sel = .error (invalidSel sel ("qualifier `" ++
        String.mk (trimList raw) ++
        "` must be either an array index or `field=value`.")))
    ∧ (∀ (f rest : List Char) (sel : String),
      '=' ∉ f → ¬ ((f ++ '=' :: rest).all Char.isDigit) →
      trimList (f ++ '=' :: rest) = f ++ '=' :: rest →
      parse_qualifier (f ++ '=' :: rest) sel =
        match parse_token f "filter field" sel with
        | .error e => .error e
        | .ok field =>
          match parse_filter_value rest sel with
          | .error e => .error e
          | .ok value => .ok (.filter field value)) := by
  constructor
  · intro raw sel hne hdig hmem
    unfold parse_qualifier
    simp only [if_neg hne, if_neg hdig, splitOnce_eq_none hmem]
  · intro f rest sel hf hdig htrim
    unfold parse_qualifier
    rw [htrim]
    have hne : f ++ '=' :: rest ≠ [] := by simp
    simp only [if_neg hne, if_neg hdig, splitOnce_append hf]

/-- Witness for `parse_qualifier_split_at_first_equals` at concrete inputs. -/
theorem parse_qualifier_split_at_first_equals_witness :
    parse_qualifier ['a', 'b'] "s" = .error (invalidSel "s"
      ("qualifier `" ++ String.mk (trimList ['a', 'b']) ++
        "` must be either an array index or `field=value`.")) ∧
    parse_qualifier (['n'] ++ '=' :: ['a', '=', 'b']) "s" =
      match parse_token ['n'] "filter field" "s" with
      | .error e => .error e
      | .ok field =>
        match parse_filter_value ['a', '=', 'b'] "s" with
        | .error e => .error e
        | .ok value => .ok (.filter field value) :=
  ⟨parse_qualifier_split_at_first_equals.1 ['a', 'b'] "s" (by decide)
      (by decide) (by decide),
    parse_qualifier_split_at_first_equals.2 ['n'] ['a', '=', 'b'] "s"
      (by decide) (by decide) (by decide)⟩

/-! ## Claim C8 -/

/-- C8 counterexample: the qualifier `18446744073709551616` (`2^64`) parses
entirely as ASCII digits, yet `parse_selector` fails (the `usize` parse
overflows), refuting the claim that every all-digit qualifier yields an
`Index`. -/
theorem index_qualifier_overflow_errors :
    parse_selector "a[18446744073709551616]" =
      .error ("Invalid version selector `a[18446744073709551616]`: " ++
        "invalid array index.") := by
  decide

/-- C8 (amended): an all-digit bracketed qualifier yields an `Index` with
its numeric value whenever that value fits in `usize`; an all-digit
qualifier whose value overflows `usize` is rejected with the
"invalid array index" error. -/
theorem parse_qualifier_all_digits (raw : List Char) (sel : String)
    (hne : trimList raw ≠ []) (hdig : (trimList raw).all Char.isDigit) :
    (natFromDigits (trimList raw) < usizeBound →
      parse_qualifier raw sel = .ok (.index (natFromDigits (trimList raw))))
    ∧ (usizeBound ≤ natFromDigits (trimList raw) →
      parse_qualifier raw sel =
        .error (invalidSel sel "invalid array index.")) := by
  constructor
  · intro h
    unfold parse_qualifier
    simp only [if_neg hne, if_pos hdig, if_pos h]
  · intro h
    unfold parse_qualifier
    simp only [if_neg hne, if_pos hdig, if_neg (by omega : ¬ natFromDigits (trimList raw) < usizeBound)]

/-- Witness for `parse_qualifier_all_digits` at concrete inputs. -/
theorem parse_qualifier_all_digits_witness :
    parse_qualifier ['4', '2'] "s" = .ok (.index 42) ∧
    parse_qualifier
      ['1', '8', '4', '4', '6', '7', '4', '4', '0', '7', '3', '7', '0',
       '9', '5', '5', '1', '6', '1', '6'] "s" =
      .error (invalidSel "s" "invalid array index.") := by
  constructor
  · exact (parse_qualifier_all_digits ['4', '2'] "s" (by decide) (by decide)).1
      (by decide)
  · exact (parse_qualifier_all_digits
      ['1', '8', '4', '4', '6', '7', '4', '4', '0', '7', '3', '7', '0',
       '9', '5', '5', '1', '6', '1', '6'] "s" (by decide) (by decide)).2
      (by decide)

/-! ## Claim C10 -/

theorem dropWhile_append_of_all {p : Char → Bool} {w l : List Char}
    (h : ∀ c ∈ w, p c) : (w ++ l).dropWhile p = l.dropWhile p := by
  rw [List.dropWhile_append]
  have hw : w.dropWhile p = [] := List.dropWhile_eq_nil_iff.mpr h
  simp [hw]

/-- Surrounding whitespace never survives `trimList`. -/
theorem trimList_pad {w1 w2 s : List Char} (h1 : ∀ c ∈ w1, isTrimWs c)
    (h2 : ∀ c ∈ w2, isTrimWs c) :
    trimList (w1 ++ s ++ w2) = trimList s := by
  unfold trimList
  rw [List.append_assoc, dropWhile_append_of_all h1, List.dropWhile_append]
  by_cases hs : (s.dropWhile isTrimWs).isEmpty
  · have hw2 : w2.dropWhile isTrimWs = [] := List.dropWhile_eq_nil_iff.mpr h2
    have hsl : s.dropWhile isTrimWs = [] := by
      simpa [List.isEmpty_iff] using hs
    simp [hs, hw2, hsl]
  · rw [if_neg (by simpa using hs), List.reverse_append,
      dropWhile_append_of_all (fun c hc => h2 c (List.mem_reverse.mp hc))]

/-- C10: trimming happens at every level — the whole selector string
(`parse_selector`), each dot-separated segment (`parse_segment`), each
segment key and filter field (`parse_token`), and each filter value
(`parse_filter_value`) — so surrounding whitespace around these tokens is
irrelevant; and a filter value that becomes empty after stripping its
wrapping quotes is rejected as "empty filter value". -/
theorem selector_whitespace_trimming :
    (∀ (w1 w2 s : String), (∀ c ∈ w1.data, isTrimWs c) →
      (∀ c ∈ w2.data, isTrimWs c) →
      parse_selector (w1 ++ s ++ w2) = parse_selector s)
    ∧ (∀ (w1 w2 raw : List Char) (sel : String), (∀ c ∈ w1, isTrimWs c) →
      (∀ c ∈ w2, isTrimWs c) →
      parse_segment (w1 ++ raw ++ w2) sel = parse_segment raw sel)
    ∧ (∀ (w1 w2 raw : List Char) (label sel : String), (∀ c ∈ w1, isTrimWs c) →
      (∀ c ∈ w2, isTrimWs c) →
      parse_token (w1 ++ raw ++ w2) label sel = parse_token raw label sel)
    ∧ (∀ (w1 w2 raw : List Char) (sel : String), (∀ c ∈ w1, isTrimWs c) →
      (∀ c ∈ w2, isTrimWs c) →
      parse_filter_value (w1 ++ raw ++ w2) sel = parse_filter_value raw sel)
    ∧ parse_selector " package . version " = parse_selector "package.version"
    ∧ parse_selector "a[name=\"\"]" =
        .error "Invalid version selector `a[name=\"\"]`: empty filter value." := by
  refine ⟨?_, ?_, ?_, ?_, by decide, by decide⟩
  · intro w1 w2 s h1 h2
    unfold parse_selector
    rw [String.data_append, String.data_append, trimList_pad h1 h2]
  · intro w1 w2 raw sel h1 h2
    unfold parse_segment
    rw [trimList_pad h1 h2]
  · intro w1 w2 raw label sel h1 h2
    unfold parse_token
    rw [trimList_pad h1 h2]
  · intro w1 w2 raw sel h1 h2
    unfold parse_filter_value
    rw [trimList_pad h1 h2]

/-- Witness for `selector_whitespace_trimming` at concrete inputs. -/
theorem selector_whitespace_trimming_witness :
    parse_selector (" " ++ "package.version" ++ "  ") =
      parse_selector "package.version" :=
  selector_whitespace_trimming.1 " " "  " "package.version"
    (by decide) (by decide)

/-! ## Claim C9 -/

theorem invalidSel_ne_empty (sel m : String) : invalidSel sel m ≠ "" := by
  intro h
  have hlen := congrArg String.length h
  rw [invalidSel] at hlen
  simp only [String.length_append] at hlen
  have h26 : ("Invalid version selector `" : String).length = 26 := rfl
  have h0 : ("" : String).length = 0 := rfl
  rw [h26, h0] at hlen
  omega

theorem parse_token_error_ne {raw : List Char} {label sel e : String}
    (h : parse_token raw label sel = .error e) : e ≠ "" := by
  simp only [parse_token] at h
  split at h
  · injection h with h1
    exact h1 ▸ invalidSel_ne_empty _ _
  · split at h
    · injection h with h1
      exact h1 ▸ invalidSel_ne_empty _ _
    · exact absurd h (by simp)

theorem parse_filter_value_error_ne {raw : List Char} {sel e : String}
    (h : parse_filter_value raw sel = .error e) : e ≠ "" := by
  simp only [parse_filter_value] at h
  split at h
  · injection h with h1
    exact h1 ▸ invalidSel_ne_empty _ _
  · split at h
    · injection h with h1
      exact h1 ▸ invalidSel_ne_empty _ _
    · split at h
      · injection h with h1
        exact h1 ▸ invalidSel_ne_empty _ _
      · exact absurd h (by simp)

theorem parse_qualifier_error_ne {raw : List Char} {sel e : String}
    (h : parse_qualifier raw sel = .error e) : e ≠ "" := by
  simp only [parse_qualifier] at h
  split at h
  · injection h with h1
    exact h1 ▸ invalidSel_ne_empty _ _
  · split at h
    · split at h
      · exact absurd h (by simp)
      · injection h with h1
        exact h1 ▸ invalidSel_ne_empty _ _
    · split at h
      · injection h with h1
        exact h1 ▸ invalidSel_ne_empty _ _
      · split at h
        · injection h with h1
          rename_i herr
          exact h1 ▸ parse_token_error_ne herr
        · split at h
          · injection h with h1
            rename_i herr
            exact h1 ▸ parse_filter_value_error_ne herr
          · exact absurd h (by simp)

theorem parse_segment_error_ne {raw : List Char} {sel e : String}
    (h : parse_segment raw sel = .error e) : e ≠ "" := by
  simp only [parse_segment] at h
  split at h
  · injection h with h1
    exact h1 ▸ invalidSel_ne_empty _ _
  · split at h
    · split at h
      · injection h with h1
        rename_i herr
        exact h1 ▸ parse_token_error_ne herr
      · exact absurd h (by simp)
    · split at h
      · injection h with h1
        exact h1 ▸ invalidSel_ne_empty _ _
      · split at h
        · injection h with h1
          rename_i herr
          exact h1 ▸ parse_token_error_ne herr
        · split at h
          · injection h with h1
            rename_i herr
            exact h1 ▸ parse_qualifier_error_ne herr
          · exact absurd h (by simp)

theorem parseSelectorAux_error_ne {cs : List Char} {sel : String}
    {acc : List Char} {inBrackets : Bool} {segs : List SelectorSegment}
    {e : String} (h : parseSelectorAux sel cs acc inBrackets segs = .error e) :
    e ≠ "" := by
  induction cs generalizing acc inBrackets segs with
  | nil =>
    unfold parseSelectorAux at h
    split at h
    · injection h with h1
      exact h1 ▸ invalidSel_ne_empty _ _
    · split at h
      · injection h with h1
        rename_i herr
        exact h1 ▸ parse_segment_error_ne herr
      · exact absurd h (by simp)
  | cons c cs ih =>
    unfold parseSelectorAux at h
    split at h
    · split at h
      · injection h with h1
        exact h1 ▸ invalidSel_ne_empty _ _
      · exact ih h
    · split at h
      · split at h
        · injection h with h1
          exact h1 ▸ invalidSel_ne_empty _ _
        · exact ih h
      · split at h
        · split at h
          · injection h with h1
            rename_i herr
            exact h1 ▸ parse_segment_error_ne herr
          · exact ih h
        · exact ih h

theorem parseSelectorAux_ok_len {cs : List Char} {sel : String}
    {acc : List Char} {inBrackets : Bool} {segs l : List SelectorSegment}
    (h : parseSelectorAux sel cs acc inBrackets segs = .ok l) :
    segs.length + 1 ≤ l.length := by
  induction cs generalizing acc inBrackets segs with
  | nil =>
    unfold parseSelectorAux at h
    split at h
    · exact absurd h (by simp)
    · split at h
      · exact absurd h (by simp)
      · injection h with h1
        subst h1
        simp
  | cons c cs ih =>
    unfold parseSelectorAux at h
    split at h
    · split at h
      · exact absurd h (by simp)
      · exact ih h
    · split at h
      · split at h
        · exact absurd h (by simp)
        · exact ih h
      · split at h
        · split at h
          · exact absurd h (by simp)
          · have := ih h
            simp only [List.length_append, List.length_singleton] at this
            omega
        · exact ih h

/-- C9: `parse_selector` is a total pure function — on every input string it
either succeeds with a selector holding at least one segment, or fails with
a non-empty (descriptive) error message. -/
theorem parse_selector_total (s : String) :
    match parse_selector s with
    | .ok sel => sel.segments ≠ []
    | .error e => e ≠ "" := by
  cases hp : parse_selector s with
  | ok sel =>
    simp only [parse_selector] at hp
    split at hp
    · exact absurd hp (by simp)
    · split at hp
      · exact absurd hp (by simp)
      · injection hp with h1
        rename_i haux
        have hlen := parseSelectorAux_ok_len haux
        subst h1
        simp only [List.length_nil] at hlen
        intro hnil
        simp only at hnil
        rw [hnil] at hlen
        simp at hlen
  | error e =>
    simp only [parse_selector] at hp
    split at hp
    · injection hp with h1
      exact h1 ▸ (by decide : ("Version selector cannot be empty." : String) ≠ "")
    · split at hp
      · injection hp with h1
        rename_i herr
        exact h1 ▸ parseSelectorAux_error_ne herr
      · exact absurd hp (by simp)

/-! ## Claim C1 -/

/-- C1: the soft side of the two-tier frontier policy, for both document
models.  A frontier path whose node is absent or not a mapping, a mapping
lacking the segment's key, and an in-bounds check failure of an `Index`
qualifier over a present array all contribute nothing (and no error); and
once the segment loop finishes, an empty frontier is exactly the
"matched no values" error while a non-empty frontier is returned as is. -/
theorem resolve_soft_drop_policy :
    (∀ (root : Json) (selText fileP : String) (seg : SelectorSegment)
      (p : List PathStep),
      json_value_at_path root p = none →
      jsonStepOne root selText fileP seg p = .ok [])
    ∧ (∀ (root : Json) (selText fileP : String) (seg : SelectorSegment)
      (p : List PathStep) (node : Json),
      json_value_at_path root p = some node → node.asObj = none →
      jsonStepOne root selText fileP seg p = .ok [])
    ∧ (∀ (root : Json) (selText fileP : String) (seg : SelectorSegment)
      (p : List PathStep) (node : Json) (fields : List (String × Json)),
      json_value_at_path root p = some node → node.asObj = some fields →
      assocGet fields seg.key = none →
      jsonStepOne root selText fileP seg p = .ok [])
    ∧ (∀ (root : Json) (selText fileP key : String) (i : Nat)
      (p : List PathStep) (node child : Json) (fields : List (String × Json))
      (elems : List Json),
      json_value_at_path root p = some node → node.asObj = some fields →
      assocGet fields key = some child → child.asArr = some elems →
      elems.length ≤ i →
      jsonStepOne root selText fileP
        { key := key, qualifier := some (.index i) } p = .ok [])
    ∧ (∀ (root : Json) (selText : String) (selector : VersionSelector)
      (fileP : String) (frontier : List (List PathStep)),
      resolveJsonFrontier root selText fileP selector.segments [[]] =
        .ok frontier →
      resolve_json_paths root selText selector fileP =
        if frontier = [] then .error (noMatchMsg selText fileP)
        else .ok frontier)
    ∧ (∀ (root : Toml) (selText fileP : String) (seg : SelectorSegment)
      (p : List PathStep),
      toml_value_at_path root p = none →
      tomlStepOne root selText fileP seg p = .ok [])
    ∧ (∀ (root : Toml) (selText fileP : String) (seg : SelectorSegment)
      (p : List PathStep) (node : Toml),
      toml_value_at_path root p = some node → node.asTable = none →
      tomlStepOne root selText fileP seg p = .ok [])
    ∧ (∀ (root : Toml) (selText fileP : String) (seg : SelectorSegment)
      (p : List PathStep) (node : Toml) (fields : List (String × Toml)),
      toml_value_at_path root p = some node → node.asTable = some fields →
      assocGet fields seg.key = none →
      tomlStepOne root selText fileP seg p = .ok [])
    ∧ (∀ (root : Toml) (selText fileP key : String) (i : Nat)
      (p : List PathStep) (node child : Toml) (fields : List (String × Toml))
      (elems : List Toml),
      toml_value_at_path root p = some node → node.asTable = some fields →
      assocGet fields key = some child → child.asArr = some elems →
      elems.length ≤ i →
      tomlStepOne root selText fileP
        { key := key, qualifier := some (.index i) } p = .ok [])
    ∧ (∀ (root : Toml) (selText : String) (selector : VersionSelector)
      (fileP : String) (frontier : List (List PathStep)),
      resolveTomlFrontier root selText fileP selector.segments [[]] =
        .ok frontier →
      resolve_toml_paths root selText selector fileP =
        if frontier = [] then .error (noMatchMsg selText fileP)
        else .ok frontier) := by
  refine ⟨?_, ?_, ?_, ?_, ?_, ?_, ?_, ?_, ?_, ?_⟩
  · intro root selText fileP seg p h
    simp [jsonStepOne, h]
  · intro root selText fileP seg p node h1 h2
    simp [jsonStepOne, h1, h2]
  · intro root selText fileP seg p node fields h1 h2 h3
    simp [jsonStepOne, h1, h2, h3]
  · intro root selText fileP key i p node child fields elems h1 h2 h3 h4 h5
    simp only [jsonStepOne, h1, h2, h3, h4]
    rw [if_neg (by omega)]
  · intro root selText selector fileP frontier h
    simp only [resolve_json_paths, h]
  · intro root selText fileP seg p h
    simp [tomlStepOne, h]
  · intro root selText fileP seg p node h1 h2
    simp [tomlStepOne, h1, h2]
  · intro root selText fileP seg p node fields h1 h2 h3
    simp [tomlStepOne, h1, h2, h3]
  · intro root selText fileP key i p node child fields elems h1 h2 h3 h4 h5
    simp only [tomlStepOne, h1, h2, h3, h4]
    rw [if_neg (by omega)]
  · intro root selText selector fileP frontier h
    simp only [resolve_toml_paths, h]

/-- Witness for `resolve_soft_drop_policy` at concrete inputs. -/
theorem resolve_soft_drop_policy_witness :
    jsonStepOne (Json.obj [("k", Json.arr [])]) "s" "f"
      { key := "k", qualifier := some (.index 0) } [] = .ok [] ∧
    resolve_json_paths (Json.obj [("version", Json.str "1.0.0")]) "version"
      { segments := [{ key := "version", qualifier := none }] } "f" =
      .ok [[PathStep.key "version"]] := by
  constructor
  · exact resolve_soft_drop_policy.2.2.2.1 (Json.obj [("k", Json.arr [])])
      "s" "f" "k" 0 [] _ (Json.arr []) _ [] rfl rfl rfl rfl (by decide)
  · exact (resolve_soft_drop_policy.2.2.2.2.1
      (Json.obj [("version", Json.str "1.0.0")]) "version"
      { segments := [{ key := "version", qualifier := none }] } "f"
      [[PathStep.key "version"]] (by decide)).trans (by decide)

/-! ## Claim C2 -/

theorem jsonFilterScan_isError {selText fileP segKey field value : String}
    {childPath : List PathStep} {elems : List Json}
    (hbad : (∃ e ∈ elems, e.asObj = none) ∨
      (∃ e ∈ elems, ∃ fs, e.asObj = some fs ∧
        ∃ fv, assocGet fs field = some fv ∧ fv.asStr = none)) :
    ∀ idx, isError (jsonFilterScan selText fileP segKey field value childPath
      elems idx) := by
  induction elems with
  | nil =>
    rcases hbad with ⟨e, he, _⟩ | ⟨e, he, _⟩ <;> simp at he
  | cons e rest ih =>
    intro idx
    cases hobj : e.asObj with
    | none =>
      exact ⟨expectsObjectsMsg selText segKey fileP,
        by simp [jsonFilterScan, hobj]⟩
    | some fs =>
      have hbad' : (∃ x ∈ rest, x.asObj = none) ∨
          (∃ x ∈ rest, ∃ xs, x.asObj = some xs ∧
            ∃ fv, assocGet xs field = some fv ∧ fv.asStr = none) ∨
          (∃ fv, assocGet fs field = some fv ∧ fv.asStr = none) := by
        rcases hbad with ⟨x, hx, hxo⟩ | ⟨x, hx, xs, hxo, hv⟩
        · rcases List.mem_cons.mp hx with rfl | hx'
          · rw [hobj] at hxo; exact absurd hxo (by simp)
          · exact Or.inl ⟨x, hx', hxo⟩
        · rcases List.mem_cons.mp hx with rfl | hx'
          · rw [hobj] at hxo
            obtain rfl : xs = fs := by injection hxo with h'; exact h'.symm
            exact Or.inr (Or.inr hv)
          · exact Or.inr (Or.inl ⟨x, hx', xs, hxo, hv⟩)
      rcases hbad' with hrest | hrest | ⟨fv, hget, hstr⟩
      · have ihe := ih (Or.inl hrest) (idx + 1)
        obtain ⟨e', he'⟩ := ihe
        cases hget : assocGet fs field with
        | none => exact ⟨e', by simp [jsonFilterScan, hobj, hget, he']⟩
        | some fv =>
          cases hstr : fv.asStr with
          | none => exact ⟨fieldStringMsg selText field fileP,
              by simp [jsonFilterScan, hobj, hget, hstr]⟩
          | some actual =>
            by_cases hv : actual = value
            · exact ⟨e', by simp [jsonFilterScan, hobj, hget, hstr, hv, he']⟩
            · exact ⟨e', by simp [jsonFilterScan, hobj, hget, hstr, hv, he']⟩
      · have ihe := ih (Or.inr hrest) (idx + 1)
        obtain ⟨e', he'⟩ := ihe
        cases hget : assocGet fs field with
        | none => exact ⟨e', by simp [jsonFilterScan, hobj, hget, he']⟩
        | some fv =>
          cases hstr : fv.asStr with
          | none => exact ⟨fieldStringMsg selText field fileP,
              by simp [jsonFilterScan, hobj, hget, hstr]⟩
          | some actual =>
            by_cases hv : actual = value
            · exact ⟨e', by simp [jsonFilterScan, hobj, hget, hstr, hv, he']⟩
            · exact ⟨e', by simp [jsonFilterScan, hobj, hget, hstr, hv, he']⟩
      · exact ⟨fieldStringMsg selText field fileP,
          by simp [jsonFilterScan, hobj, hget, hstr]⟩

theorem tomlFilterScan_isError {selText fileP segKey field value : String}
    {childPath : List PathStep} {elems : List Toml}
    (hbad : (∃ e ∈ elems, e.asTable = none) ∨
      (∃ e ∈ elems, ∃ fs, e.asTable = some fs ∧
        ∃ fv, assocGet fs field = some fv ∧ fv.asStr = none)) :
    ∀ idx, isError (tomlFilterScan selText fileP segKey field value childPath
      elems idx) := by
  induction elems with
  | nil =>
    rcases hbad with ⟨e, he, _⟩ | ⟨e, he, _⟩ <;> simp at he
  | cons e rest ih =>
    intro idx
    cases hobj : e.asTable with
    | none =>
      exact ⟨expectsTablesMsg selText segKey fileP,
        by simp [tomlFilterScan, hobj]⟩
    | some fs =>
      have hbad' : (∃ x ∈ rest, x.asTable = none) ∨
          (∃ x ∈ rest, ∃ xs, x.asTable = some xs ∧
            ∃ fv, assocGet xs field = some fv ∧ fv.asStr = none) ∨
          (∃ fv, assocGet fs field = some fv ∧ fv.asStr = none) := by
        rcases hbad with ⟨x, hx, hxo⟩ | ⟨x, hx, xs, hxo, hv⟩
        · rcases List.mem_cons.mp hx with rfl | hx'
          · rw [hobj] at hxo; exact absurd hxo (by simp)
          · exact Or.inl ⟨x, hx', hxo⟩
        · rcases List.mem_cons.mp hx with rfl | hx'
          · rw [hobj] at hxo
            obtain rfl : xs = fs := by injection hxo with h'; exact h'.symm
            exact Or.inr (Or.inr hv)
          · exact Or.inr (Or.inl ⟨x, hx', xs, hxo, hv⟩)
      rcases hbad' with hrest | hrest | ⟨fv, hget, hstr⟩
      · have ihe := ih (Or.inl hrest) (idx + 1)
        obtain ⟨e', he'⟩ := ihe
        cases hget : assocGet fs field with
        | none => exact ⟨e', by simp [tomlFilterScan, hobj, hget, he']⟩
        | some fv =>
          cases hstr : fv.asStr with
          | none => exact ⟨fieldStringMsg selText field fileP,
              by simp [tomlFilterScan, hobj, hget, hstr]⟩
          | some actual =>
            by_cases hv : actual = value
            · exact ⟨e', by simp [tomlFilterScan, hobj, hget, hstr, hv, he']⟩
            · exact ⟨e', by simp [tomlFilterScan, hobj, hget, hstr, hv, he']⟩
      · have ihe := ih (Or.inr hrest) (idx + 1)
        obtain ⟨e', he'⟩ := ihe
        cases hget : assocGet fs field with
        | none => exact ⟨e', by simp [tomlFilterScan, hobj, hget, he']⟩
        | some fv =>
          cases hstr : fv.asStr with
          | none => exact ⟨fieldStringMsg selText field fileP,
              by simp [tomlFilterScan, hobj, hget, hstr]⟩
          | some actual =>
            by_cases hv : actual = value
            · exact ⟨e', by simp [tomlFilterScan, hobj, hget, hstr, hv, he']⟩
            · exact ⟨e', by simp [tomlFilterScan, hobj, hget, hstr, hv, he']⟩
      · exact ⟨fieldStringMsg selText field fileP,
          by simp [tomlFilterScan, hobj, hget, hstr]⟩

theorem jsonSegmentStep_error_of_mem {root : Json} {selText fileP : String}
    {seg : SelectorSegment} {p : List PathStep} :
    ∀ {paths : List (List PathStep)} (acc : List (List PathStep)),
    p ∈ paths → isError (jsonStepOne root selText fileP seg p) →
    isError (jsonSegmentStep root selText fileP seg paths acc) := by
  intro paths
  induction paths with
  | nil => intro acc h; simp at h
  | cons q qs ih =>
    intro acc hmem herr
    cases hq : jsonStepOne root selText fileP seg q with
    | error e => exact ⟨e, by simp [jsonSegmentStep, hq]⟩
    | ok contrib =>
      rcases List.mem_cons.mp hmem with rfl | hmem'
      · obtain ⟨e, he⟩ := herr
        rw [hq] at he
        exact absurd he (by simp)
      · obtain ⟨e, he⟩ := ih
          (contrib.foldl (fun a c => insertPath c a) acc) hmem' herr
        exact ⟨e, by simp [jsonSegmentStep, hq, he]⟩

theorem tomlSegmentStep_error_of_mem {root : Toml} {selText fileP : String}
    {seg : SelectorSegment} {p : List PathStep} :
    ∀ {paths : List (List PathStep)} (acc : List (List PathStep)),
    p ∈ paths → isError (tomlStepOne root selText fileP seg p) →
    isError (tomlSegmentStep root selText fileP seg paths acc) := by
  intro paths
  induction paths with
  | nil => intro acc h; simp at h
  | cons q qs ih =>
    intro acc hmem herr
    cases hq : tomlStepOne root selText fileP seg q with
    | error e => exact ⟨e, by simp [tomlSegmentStep, hq]⟩
    | ok contrib =>
      rcases List.mem_cons.mp hmem with rfl | hmem'
      · obtain ⟨e, he⟩ := herr
        rw [hq] at he
        exact absurd he (by simp)
      · obtain ⟨e, he⟩ := ih
          (contrib.foldl (fun a c => insertPath c a) acc) hmem' herr
        exact ⟨e, by simp [tomlSegmentStep, hq, he]⟩

theorem resolveJsonFrontier_append {root : Json} {selText fileP : String}
    (a b : List SelectorSegment) (paths : List (List PathStep)) :
    resolveJsonFrontier root selText fileP (a ++ b) paths =
      match resolveJsonFrontier root selText fileP a paths with
      | .error e => .error e
      | .ok m => resolveJsonFrontier root selText fileP b m := by
  induction a generalizing paths with
  | nil => simp [resolveJsonFrontier]
  | cons seg rest ih =>
    simp only [List.cons_append, resolveJsonFrontier]
    cases hs : jsonSegmentStep root selText fileP seg paths [] with
    | error e => simp
    | ok next => simp [ih next]

theorem resolveTomlFrontier_append {root : Toml} {selText fileP : String}
    (a b : List SelectorSegment) (paths : List (List PathStep)) :
    resolveTomlFrontier root selText fileP (a ++ b) paths =
      match resolveTomlFrontier root selText fileP a paths with
      | .error e => .error e
      | .ok m => resolveTomlFrontier root selText fileP b m := by
  induction a generalizing paths with
  | nil => simp [resolveTomlFrontier]
  | cons seg rest ih =>
    simp only [List.cons_append, resolveTomlFrontier]
    cases hs : tomlSegmentStep root selText fileP seg paths [] with
    | error e => simp
    | ok next => simp [ih next]

/-- C2: the hard side of the two-tier policy, for both document models.
When a frontier node's mapping has the segment's key but the child is not a
sequence while the qualifier is `Index` or `Filter`, the branch yields the
type-mismatch error naming the segment key (not a silent drop), and that
error aborts the resolution of the whole selector; a `Filter` over an array
with a non-mapping element, or whose filter field is present on an element
but not a string, likewise errors. -/
theorem resolve_type_mismatch_policy :
    (∀ (root : Json) (selText fileP key : String)
      (q : SegmentQualifier) (p : List PathStep) (node child : Json)
      (fields : List (String × Json)),
      json_value_at_path root p = some node → node.asObj = some fields →
      assocGet fields key = some child → child.asArr = none →
      jsonStepOne root selText fileP { key := key, qualifier := some q } p =
        .error (expectsArrayMsg selText key fileP))
    ∧ (∀ (root : Json) (selText fileP key field value : String)
      (p : List PathStep) (node child : Json)
      (fields : List (String × Json)) (elems : List Json),
      json_value_at_path root p = some node → node.asObj = some fields →
      assocGet fields key = some child → child.asArr = some elems →
      ((∃ e ∈ elems, e.asObj = none) ∨
        (∃ e ∈ elems, ∃ fs, e.asObj = some fs ∧
          ∃ fv, assocGet fs field = some fv ∧ fv.asStr = none)) →
      isError (jsonStepOne root selText fileP
        { key := key, qualifier := some (.filter field value) } p))
    ∧ (∀ (root : Json) (selText fileP : String)
      (pre post : List SelectorSegment) (seg : SelectorSegment)
      (frontier : List (List PathStep)) (p : List PathStep),
      resolveJsonFrontier root selText fileP pre [[]] = .ok frontier →
      p ∈ frontier → isError (jsonStepOne root selText fileP seg p) →
      isError (resolve_json_paths root selText
        { segments := pre ++ seg :: post } fileP))
    ∧ (∀ (root : Toml) (selText fileP key : String)
      (q : SegmentQualifier) (p : List PathStep) (node child : Toml)
      (fields : List (String × Toml)),
      toml_value_at_path root p = some node → node.asTable = some fields →
      assocGet fields key = some child → child.asArr = none →
      tomlStepOne root selText fileP { key := key, qualifier := some q } p =
        .error (expectsArrayMsg selText key fileP))
    ∧ (∀ (root : Toml) (selText fileP key field value : String)
      (p : List PathStep) (node child : Toml)
      (fields : List (String × Toml)) (elems : List Toml),
      toml_value_at_path root p = some node → node.asTable = some fields →
      assocGet fields key = some child → child.asArr = some elems →
      ((∃ e ∈ elems, e.asTable = none) ∨
        (∃ e ∈ elems, ∃ fs, e.asTable = some fs ∧
          ∃ fv, assocGet fs field = some fv ∧ fv.asStr = none)) →
      isError (tomlStepOne root selText fileP
        { key := key, qualifier := some (.filter field value) } p))
    ∧ (∀ (root : Toml) (selText fileP : String)
      (pre post : List SelectorSegment) (seg : SelectorSegment)
      (frontier : List (List PathStep)) (p : List PathStep),
      resolveTomlFrontier root selText fileP pre [[]] = .ok frontier →
      p ∈ frontier → isError (tomlStepOne root selText fileP seg p) →
      isError (resolve_toml_paths root selText
        { segments := pre ++ seg :: post } fileP)) := by
  refine ⟨?_, ?_, ?_, ?_, ?_, ?_⟩
  · intro root selText fileP key q p node child fields h1 h2 h3 h4
    cases q <;> simp [jsonStepOne, h1, h2, h3, h4]
  · intro root selText fileP key field value p node child fields elems
      h1 h2 h3 h4 hbad
    have := @jsonFilterScan_isError selText fileP key field value
      (p ++ [PathStep.key key]) elems hbad 0
    obtain ⟨e, he⟩ := this
    exact ⟨e, by simp [jsonStepOne, h1, h2, h3, h4, he]⟩
  · intro root selText fileP pre post seg frontier p hpre hmem herr
    obtain ⟨e, he⟩ := jsonSegmentStep_error_of_mem [] hmem herr
    refine ⟨e, ?_⟩
    have : resolveJsonFrontier root selText fileP (pre ++ seg :: post) [[]] =
        .error e := by
      rw [resolveJsonFrontier_append, hpre]
      simp only [resolveJsonFrontier, he]
    simp [resolve_json_paths, this]
  · intro root selText fileP key q p node child fields h1 h2 h3 h4
    cases q <;> simp [tomlStepOne, h1, h2, h3, h4]
  · intro root selText fileP key field value p node child fields elems
      h1 h2 h3 h4 hbad
    have := @tomlFilterScan_isError selText fileP key field value
      (p ++ [PathStep.key key]) elems hbad 0
    obtain ⟨e, he⟩ := this
    exact ⟨e, by simp [tomlStepOne, h1, h2, h3, h4, he]⟩
  · intro root selText fileP pre post seg frontier p hpre hmem herr
    obtain ⟨e, he⟩ := tomlSegmentStep_error_of_mem [] hmem herr
    refine ⟨e, ?_⟩
    have : resolveTomlFrontier root selText fileP (pre ++ seg :: post) [[]] =
        .error e := by
      rw [resolveTomlFrontier_append, hpre]
      simp only [resolveTomlFrontier, he]
    simp [resolve_toml_paths, this]

/-- Witness for `resolve_type_mismatch_policy` at the spec's own example:
`package[name=brel].version` over a document whose `package` is a mapping. -/
theorem resolve_type_mismatch_policy_witness :
    jsonStepOne
      (Json.obj [("package",
        Json.obj [("name", Json.str "brel"), ("version", Json.str "1.0.0")])])
      "package[name=brel].version" "package.json"
      { key := "package", qualifier := some (.filter "name" "brel") } [] =
      .error (expectsArrayMsg "package[name=brel].version" "package"
        "package.json") ∧
    isError (resolve_json_paths
      (Json.obj [("package",
        Json.obj [("name", Json.str "brel"), ("version", Json.str "1.0.0")])])
      "package[name=brel].version"
      { segments :=
        [{ key := "package", qualifier := some (.filter "name" "brel") },
         { key := "version", qualifier := none }] } "package.json") := by
  constructor
  · exact resolve_type_mismatch_policy.1 _ "package[name=brel].version"
      "package.json" "package" (.filter "name" "brel") [] _
      (Json.obj [("name", Json.str "brel"), ("version", Json.str "1.0.0")]) _
      rfl rfl rfl rfl
  · exact resolve_type_mismatch_policy.2.2.1 _ "package[name=brel].version"
      "package.json" [] [{ key := "version", qualifier := none }]
      { key := "package", qualifier := some (.filter "name" "brel") }
      [[]] [] rfl (by simp)
      ⟨expectsArrayMsg "package[name=brel].version" "package" "package.json",
        by decide⟩

/-! ## Claim C3 -/

/-- Structure of the per-file step: either the file system is untouched, or
exactly one write of some produced output happened (and the step reported a
change). -/
theorem processFile_cases (E : Codecs) (fs : FS) (n : String)
    (o : List (String × VersionFileFormat)) (r : String) (s : List String) :
    (processFile E fs n o r s).1 = fs ∨
    ∃ out, processFile E fs n o r s = (fsWrite fs r out, .ok true) := by
  simp only [processFile]
  split
  · exact Or.inl rfl
  · split
    · exact Or.inl rfl
    · split
      · exact Or.inl rfl
      · split
        · exact Or.inl rfl
        · exact Or.inl rfl
        · exact Or.inr ⟨_, rfl⟩

/-- C3: whenever processing a configured file ends in an error of any kind
(missing file, undetected format, selector syntax error, document parse
error, selector no-match, type mismatch, non-string leaf), the file system
is left exactly as it was: content is only written on a successful,
changed update. -/
theorem errors_leave_file_unwritten (E : Codecs) (fs : FS) (n : String)
    (o : List (String × VersionFileFormat)) (r : String) (s : List String)
    (e : String) (h : (processFile E fs n o r s).2 = .error e) :
    (processFile E fs n o r s).1 = fs := by
  rcases processFile_cases E fs n o r s with h1 | ⟨out, hout⟩
  · exact h1
  · rw [hout] at h
    exact absurd h (by simp)

/-- External codecs that parse nothing; enough to exercise the orchestrator
paths that fail before or during document parsing. -/
def trivialCodecs : Codecs where
  parseJson := fun _ => none
  printJson := fun _ => ""
  parseToml := fun _ => none
  parseTomlEdit := fun _ => none
  printTomlEdit := fun _ => ""

/-- Witness for `errors_leave_file_unwritten`: a missing configured file
errors and leaves the (empty) file system unchanged. -/
theorem errors_leave_file_unwritten_witness :
    (processFile trivialCodecs [] "1.0.0" [] "missing.json" ["version"]).1 =
      [] :=
  errors_leave_file_unwritten trivialCodecs [] "1.0.0" [] "missing.json"
    ["version"]
    "Configured version update file `missing.json` was not found." rfl

/-! ## Claim C4 -/

/-- The spec's reading of a `Filter` over an array: the (relative) indices
of exactly those elements whose `field` is present and string-equal to
`value`; elements lacking the field are skipped. -/
def jsonFilterMatches (field value : String) : List Json → List Nat
  | [] => []
  | e :: rest =>
    let tailMatches := (jsonFilterMatches field value rest).map (· + 1)
    match e.asObj with
    | some fs =>
      match assocGet fs field with
      | some fv => if fv.asStr = some value then 0 :: tailMatches else tailMatches
      | none => tailMatches
    | none => tailMatches

/-- TOML counterpart of `jsonFilterMatches`. -/
def tomlFilterMatches (field value : String) : List Toml → List Nat
  | [] => []
  | e :: rest =>
    let tailMatches := (tomlFilterMatches field value rest).map (· + 1)
    match e.asTable with
    | some fs =>
      match assocGet fs field with
      | some fv => if fv.asStr = some value then 0 :: tailMatches else tailMatches
      | none => tailMatches
    | none => tailMatches

theorem mapIndexShift (childPath : List PathStep) (idx : Nat)
    (M : List Nat) :
    List.map (fun i => childPath ++ [PathStep.index (idx + i)])
      (List.map (fun x => x + 1) M) =
    List.map (fun i => childPath ++ [PathStep.index (idx + 1 + i)]) M := by
  rw [List.map_map]
  refine List.map_congr_left ?_
  intro a ha
  have hsh : idx + (a + 1) = idx + 1 + a := by omega
  simp [Function.comp, hsh]

theorem jsonFilterScan_wellTyped {selText fileP segKey field value : String}
    {childPath : List PathStep} {elems : List Json}
    (hwt : ∀ e ∈ elems, ∃ fs, e.asObj = some fs ∧
      (∀ fv, assocGet fs field = some fv → ∃ s, fv.asStr = some s)) :
    ∀ idx, jsonFilterScan selText fileP segKey field value childPath elems
      idx =
      .ok ((jsonFilterMatches field value elems).map
        (fun i => childPath ++ [.index (idx + i)])) := by
  induction elems with
  | nil => intro idx; simp [jsonFilterScan, jsonFilterMatches]
  | cons e rest ih =>
    intro idx
    obtain ⟨fs, hobj, hfv⟩ := hwt e (List.mem_cons_self e rest)
    have hwt' := fun x hx => hwt x (List.mem_cons_of_mem e hx)
    cases hget : assocGet fs field with
    | none =>
      simp only [jsonFilterScan, hobj, hget, jsonFilterMatches, ih hwt', mapIndexShift]
    | some fv =>
      obtain ⟨s, hs⟩ := hfv fv hget
      by_cases hv : s = value
      · subst hv
        simp only [jsonFilterScan, hobj, hget, hs, if_pos rfl, ih hwt', jsonFilterMatches,
          List.map_cons, mapIndexShift, Nat.add_zero]
        simp
        intro a _
        omega
      · have hsv : ¬ (fv.asStr = some value) := by simp [hs, hv]
        simp only [jsonFilterScan, hobj, hget, hs, if_neg hv, ih hwt', jsonFilterMatches,
          if_neg hsv, mapIndexShift]
        simp [hsv]
        rw [if_neg hv, mapIndexShift]

theorem tomlFilterScan_wellTyped {selText fileP segKey field value : String}
    {childPath : List PathStep} {elems : List Toml}
    (hwt : ∀ e ∈ elems, ∃ fs, e.asTable = some fs ∧
      (∀ fv, assocGet fs field = some fv → ∃ s, fv.asStr = some s)) :
    ∀ idx, tomlFilterScan selText fileP segKey field value childPath elems
      idx =
      .ok ((tomlFilterMatches field value elems).map
        (fun i => childPath ++ [.index (idx + i)])) := by
  induction elems with
  | nil => intro idx; simp [tomlFilterScan, tomlFilterMatches]
  | cons e rest ih =>
    intro idx
    obtain ⟨fs, hobj, hfv⟩ := hwt e (List.mem_cons_self e rest)
    have hwt' := fun x hx => hwt x (List.mem_cons_of_mem e hx)
    cases hget : assocGet fs field with
    | none =>
      simp only [tomlFilterScan, hobj, hget, tomlFilterMatches, ih hwt', mapIndexShift]
    | some fv =>
      obtain ⟨s, hs⟩ := hfv fv hget
      by_cases hv : s = value
      · subst hv
        simp only [tomlFilterScan, hobj, hget, hs, if_pos rfl, ih hwt', tomlFilterMatches,
          List.map_cons, mapIndexShift, Nat.add_zero]
        simp
        intro a _
        omega
      · have hsv : ¬ (fv.asStr = some value) := by simp [hs, hv]
        simp only [tomlFilterScan, hobj, hget, hs, if_neg hv, ih hwt', tomlFilterMatches,
          if_neg hsv, mapIndexShift]
        simp [hsv]
        rw [if_neg hv, mapIndexShift]

theorem Json.asObj_eq {v : Json} {fields : List (String × Json)}
    (h : v.asObj = some fields) : v = .obj fields := by
  cases v <;> simp_all [Json.asObj]

theorem Json.asArr_eq {v : Json} {elems : List Json}
    (h : v.asArr = some elems) : v = .arr elems := by
  cases v <;> simp_all [Json.asArr]

/-- Mutating the leaf below array index `i` leaves every value reachable
through a sibling index `j ≠ i` of the same array untouched. -/
theorem set_json_preserves_sibling :
    ∀ (base : List PathStep) (i j : Nat) (p q : List PathStep)
      (root root' : Json) (c : Bool) (n st fp : String), i ≠ j →
    set_json_string_at_path root (base ++ .index i :: p) n st fp =
      .ok (c, root') →
    json_value_at_path root' (base ++ .index j :: q) =
      json_value_at_path root (base ++ .index j :: q) := by
  intro base
  induction base with
  | nil =>
    intro i j p q root root' c n st fp hij h
    simp only [List.nil_append] at h ⊢
    simp only [set_json_string_at_path] at h
    cases harr : root.asArr with
    | none => simp only [harr] at h; exact absurd h (by simp)
    | some elems =>
      simp only [harr] at h
      obtain rfl := Json.asArr_eq harr
      cases hm : elems[i]? with
      | none => simp only [hm] at h; exact absurd h (by simp)
      | some child =>
        simp only [hm] at h
        cases hrec : set_json_string_at_path child p n st fp with
        | error e => simp only [hrec] at h; exact absurd h (by simp)
        | ok pair =>
          obtain ⟨c', child'⟩ := pair
          simp only [hrec, Except.ok.injEq, Prod.mk.injEq] at h
          obtain ⟨rfl, rfl⟩ := h
          simp only [json_value_at_path, Json.asArr,
            List.getElem?_set_ne hij]
  | cons step base' ih =>
    intro i j p q root root' c n st fp hij h
    cases step with
    | key k =>
      simp only [List.cons_append] at h ⊢
      simp only [set_json_string_at_path] at h
      cases hobj : root.asObj with
      | none => simp only [hobj] at h; exact absurd h (by simp)
      | some fields =>
        simp only [hobj] at h
        obtain rfl := Json.asObj_eq hobj
        cases hg : assocGet fields k with
        | none => simp only [hg] at h; exact absurd h (by simp)
        | some child =>
          simp only [hg] at h
          cases hrec : set_json_string_at_path child
              (base' ++ .index i :: p) n st fp with
          | error e => simp only [hrec] at h; exact absurd h (by simp)
          | ok pair =>
            obtain ⟨c', child'⟩ := pair
            simp only [hrec, Except.ok.injEq, Prod.mk.injEq] at h
            obtain ⟨rfl, rfl⟩ := h
            have hset := assocGet_set_eq (l := fields) (k := k) child'
              (by simp [hg])
            simp only [json_value_at_path, Json.asObj, hset, hg]
            exact ih i j p q child child' _ n st fp hij hrec
    | index m =>
      simp only [List.cons_append] at h ⊢
      simp only [set_json_string_at_path] at h
      cases harr : root.asArr with
      | none => simp only [harr] at h; exact absurd h (by simp)
      | some elems =>
        simp only [harr] at h
        obtain rfl := Json.asArr_eq harr
        cases hm : elems[m]? with
        | none => simp only [hm] at h; exact absurd h (by simp)
        | some child =>
          simp only [hm] at h
          cases hrec : set_json_string_at_path child
              (base' ++ .index i :: p) n st fp with
          | error e => simp only [hrec] at h; exact absurd h (by simp)
          | ok pair =>
            obtain ⟨c', child'⟩ := pair
            simp only [hrec, Except.ok.injEq, Prod.mk.injEq] at h
            obtain ⟨rfl, rfl⟩ := h
            have hlt : m < elems.length := by
              by_contra hge
              push_neg at hge
              rw [List.getElem?_eq_none hge] at hm
              exact absurd hm (by simp)
            simp only [json_value_at_path, Json.asArr,
              List.getElem?_set_self hlt, hm]
            exact ih i j p q child child' _ n st fp hij hrec

/-- Read-only navigation through a `toml_edit` value, mirroring exactly the
branches `set_toml_string_in_value` walks; used to observe which parts of
the syntax tree a mutation touches. -/
def teValueAtPath : TEValue → List PathStep → Option TEValue
  | v, [] => some v
  | .inlineTable fields, .key k :: rest =>
    match assocGet fields k with
    | Option.none => none
    | Option.some child => teValueAtPath child rest
  | .arr elems, .index i :: rest =>
    match elems[i]? with
    | Option.none => none
    | Option.some child => teValueAtPath child rest
  | _, _ :: _ => none

/-- Read-only navigation through a `toml_edit` item, mirroring exactly the
branches the `set_toml_string_in_item` / `set_toml_string_in_table`
mutators walk. -/
def teItemAtPath : TEItem → List PathStep → Option TEItem
  | item, [] => some item
  | .value v, step :: rest =>
    match teValueAtPath v (step :: rest) with
    | Option.none => none
    | Option.some v' => some (.value v')
  | .table fields, .key k :: rest =>
    match assocGet fields k with
    | Option.none => none
    | Option.some child => teItemAtPath child rest
  | .arrayOfTables tables, .index i :: rest =>
    match tables[i]? with
    | Option.none => none
    | Option.some t => teItemAtPath (.table t) rest
  | _, _ :: _ => none

theorem TEValue.asStr_eq {v : TEValue} {s : String}
    (h : v.asStr = some s) : v = .str s := by
  cases v <;> simp_all [TEValue.asStr]

/-- `set_toml_string_in_item` on a `Table` item computes exactly
`set_toml_string_in_table` on its fields, rewrapped. -/
theorem set_toml_item_table_eq (fields : List (String × TEItem))
    (path : List PathStep) (n st fp : String) :
    set_toml_string_in_item (.table fields) path n st fp =
      match set_toml_string_in_table fields path n st fp with
      | .error e => .error e
      | .ok (c, fields') => .ok (c, .table fields') := by
  cases path with
  | nil => simp [set_toml_string_in_item, set_toml_string_in_table]
  | cons step rest =>
    cases step with
    | key k =>
      simp only [set_toml_string_in_item, set_toml_string_in_table]
      cases assocGet fields k with
      | none => simp
      | some child =>
        cases hc : set_toml_string_in_item child rest n st fp with
        | error e => simp [hc]
        | ok pair => obtain ⟨c, child'⟩ := pair; simp [hc]
    | index i =>
      simp [set_toml_string_in_item, set_toml_string_in_table]

/-- Value-level sibling preservation for the TOML mutator: mutating below
array index `i` leaves everything below a sibling index `j ≠ i`
untouched. -/
theorem set_toml_value_preserves_sibling :
    ∀ (base : List PathStep) (i j : Nat) (p q : List PathStep)
      (v v' : TEValue) (c : Bool) (n st fp : String), i ≠ j →
    set_toml_string_in_value v (base ++ .index i :: p) n st fp =
      .ok (c, v') →
    teValueAtPath v' (base ++ .index j :: q) =
      teValueAtPath v (base ++ .index j :: q) := by
  intro base
  induction base with
  | nil =>
    intro i j p q v v' c n st fp hij h
    simp only [List.nil_append] at h ⊢
    cases v with
    | arr elems =>
      simp only [set_toml_string_in_value] at h
      cases hm : elems[i]? with
      | none => simp only [hm] at h; exact absurd h (by simp)
      | some child =>
        simp only [hm] at h
        cases hrec : set_toml_string_in_value child p n st fp with
        | error e => simp only [hrec] at h; exact absurd h (by simp)
        | ok pair =>
          obtain ⟨c', child'⟩ := pair
          simp only [hrec, Except.ok.injEq, Prod.mk.injEq] at h
          obtain ⟨rfl, rfl⟩ := h
          simp only [teValueAtPath, List.getElem?_set_ne hij]
    | str s => simp [set_toml_string_in_value] at h
    | int m => simp [set_toml_string_in_value] at h
    | float => simp [set_toml_string_in_value] at h
    | bool b => simp [set_toml_string_in_value] at h
    | datetime s => simp [set_toml_string_in_value] at h
    | inlineTable fields => simp [set_toml_string_in_value] at h
  | cons step base' ih =>
    intro i j p q v v' c n st fp hij h
    simp only [List.cons_append] at h ⊢
    cases step with
    | key k =>
      cases v with
      | inlineTable fields =>
        simp only [set_toml_string_in_value] at h
        cases hg : assocGet fields k with
        | none => simp only [hg] at h; exact absurd h (by simp)
        | some child =>
          simp only [hg] at h
          cases hrec : set_toml_string_in_value child
              (base' ++ .index i :: p) n st fp with
          | error e => simp only [hrec] at h; exact absurd h (by simp)
          | ok pair =>
            obtain ⟨c', child'⟩ := pair
            simp only [hrec, Except.ok.injEq, Prod.mk.injEq] at h
            obtain ⟨rfl, rfl⟩ := h
            have hset := assocGet_set_eq (l := fields) (k := k) child'
              (by simp [hg])
            simp only [teValueAtPath, hset, hg]
            exact ih i j p q child child' _ n st fp hij hrec
      | str s => simp [set_toml_string_in_value] at h
      | int m => simp [set_toml_string_in_value] at h
      | float => simp [set_toml_string_in_value] at h
      | bool b => simp [set_toml_string_in_value] at h
      | datetime s => simp [set_toml_string_in_value] at h
      | arr elems => simp [set_toml_string_in_value] at h
    | index m =>
      cases v with
      | arr elems =>
        simp only [set_toml_string_in_value] at h
        cases hm : elems[m]? with
        | none => simp only [hm] at h; exact absurd h (by simp)
        | some child =>
          simp only [hm] at h
          cases hrec : set_toml_string_in_value child
              (base' ++ .index i :: p) n st fp with
          | error e => simp only [hrec] at h; exact absurd h (by simp)
          | ok pair =>
            obtain ⟨c', child'⟩ := pair
            simp only [hrec, Except.ok.injEq, Prod.mk.injEq] at h
            obtain ⟨rfl, rfl⟩ := h
            have hlt : m < elems.length := by
              by_contra hge
              push_neg at hge
              rw [List.getElem?_eq_none hge] at hm
              exact absurd hm (by simp)
            have hget := List.getElem?_set_self (l := elems) (a := child') hlt
            simp only [teValueAtPath, hget, hm]
            exact ih i j p q child child' _ n st fp hij hrec
      | str s => simp [set_toml_string_in_value] at h
      | int mm => simp [set_toml_string_in_value] at h
      | float => simp [set_toml_string_in_value] at h
      | bool b => simp [set_toml_string_in_value] at h
      | datetime s => simp [set_toml_string_in_value] at h
      | inlineTable fields => simp [set_toml_string_in_value] at h

/-- Item-level sibling preservation for the TOML mutator (tables,
arrays-of-tables, inline tables and value arrays alike). -/
theorem set_toml_item_preserves_sibling :
    ∀ (base : List PathStep) (i j : Nat) (p q : List PathStep)
      (item item' : TEItem) (c : Bool) (n st fp : String), i ≠ j →
    set_toml_string_in_item item (base ++ .index i :: p) n st fp =
      .ok (c, item') →
    teItemAtPath item' (base ++ .index j :: q) =
      teItemAtPath item (base ++ .index j :: q) := by
  intro base
  induction base with
  | nil =>
    intro i j p q item item' c n st fp hij h
    simp only [List.nil_append] at h ⊢
    cases item with
    | arrayOfTables tables =>
      simp only [set_toml_string_in_item] at h
      cases hm : tables[i]? with
      | none => simp only [hm] at h; exact absurd h (by simp)
      | some t =>
        simp only [hm] at h
        cases hrec : set_toml_string_in_table t p n st fp with
        | error e => simp only [hrec] at h; exact absurd h (by simp)
        | ok pair =>
          obtain ⟨c', t'⟩ := pair
          simp only [hrec, Except.ok.injEq, Prod.mk.injEq] at h
          obtain ⟨rfl, rfl⟩ := h
          simp only [teItemAtPath, List.getElem?_set_ne hij]
    | value v =>
      cases v with
      | arr elems =>
        simp only [set_toml_string_in_item] at h
        cases hm : elems[i]? with
        | none => simp only [hm] at h; exact absurd h (by simp)
        | some child =>
          simp only [hm] at h
          cases hrec : set_toml_string_in_value child p n st fp with
          | error e => simp only [hrec] at h; exact absurd h (by simp)
          | ok pair =>
            obtain ⟨c', child'⟩ := pair
            simp only [hrec, Except.ok.injEq, Prod.mk.injEq] at h
            obtain ⟨rfl, rfl⟩ := h
            simp only [teItemAtPath, teValueAtPath,
              List.getElem?_set_ne hij]
      | str s => simp [set_toml_string_in_item] at h
      | int m => simp [set_toml_string_in_item] at h
      | float => simp [set_toml_string_in_item] at h
      | bool b => simp [set_toml_string_in_item] at h
      | datetime s => simp [set_toml_string_in_item] at h
      | inlineTable fields => simp [set_toml_string_in_item] at h
    | none => simp [set_toml_string_in_item] at h
    | table fields => simp [set_toml_string_in_item] at h
  | cons step base' ih =>
    intro i j p q item item' c n st fp hij h
    simp only [List.cons_append] at h ⊢
    cases step with
    | key k =>
      cases item with
      | table fields =>
        simp only [set_toml_string_in_item] at h
        cases hg : assocGet fields k with
        | none => simp only [hg] at h; exact absurd h (by simp)
        | some child =>
          simp only [hg] at h
          cases hrec : set_toml_string_in_item child
              (base' ++ .index i :: p) n st fp with
          | error e => simp only [hrec] at h; exact absurd h (by simp)
          | ok pair =>
            obtain ⟨c', child'⟩ := pair
            simp only [hrec, Except.ok.injEq, Prod.mk.injEq] at h
            obtain ⟨rfl, rfl⟩ := h
            have hset := assocGet_set_eq (l := fields) (k := k) child'
              (by simp [hg])
            simp only [teItemAtPath, hset, hg]
            exact ih i j p q child child' _ n st fp hij hrec
      | value v =>
        cases v with
        | inlineTable fields =>
          simp only [set_toml_string_in_item] at h
          cases hg : assocGet fields k with
          | none => simp only [hg] at h; exact absurd h (by simp)
          | some child =>
            simp only [hg] at h
            cases hrec : set_toml_string_in_value child
                (base' ++ .index i :: p) n st fp with
            | error e => simp only [hrec] at h; exact absurd h (by simp)
            | ok pair =>
              obtain ⟨c', child'⟩ := pair
              simp only [hrec, Except.ok.injEq, Prod.mk.injEq] at h
              obtain ⟨rfl, rfl⟩ := h
              have hset := assocGet_set_eq (l := fields) (k := k) child'
                (by simp [hg])
              simp only [teItemAtPath, teValueAtPath, hset, hg]
              rw [set_toml_value_preserves_sibling base' i j p q child
                child' _ n st fp hij hrec]
        | str s => simp [set_toml_string_in_item] at h
        | int m => simp [set_toml_string_in_item] at h
        | float => simp [set_toml_string_in_item] at h
        | bool b => simp [set_toml_string_in_item] at h
        | datetime s => simp [set_toml_string_in_item] at h
        | arr elems => simp [set_toml_string_in_item] at h
      | none => simp [set_toml_string_in_item] at h
      | arrayOfTables tables => simp [set_toml_string_in_item] at h
    | index m =>
      cases item with
      | arrayOfTables tables =>
        simp only [set_toml_string_in_item] at h
        cases hm : tables[m]? with
        | none => simp only [hm] at h; exact absurd h (by simp)
        | some t =>
          simp only [hm] at h
          cases hrec : set_toml_string_in_table t
              (base' ++ .index i :: p) n st fp with
          | error e => simp only [hrec] at h; exact absurd h (by simp)
          | ok pair =>
            obtain ⟨c', t'⟩ := pair
            simp only [hrec, Except.ok.injEq, Prod.mk.injEq] at h
            obtain ⟨rfl, rfl⟩ := h
            have hitem : set_toml_string_in_item (.table t)
                (base' ++ .index i :: p) n st fp = .ok (c', .table t') := by
              rw [set_toml_item_table_eq, hrec]
            have hlt : m < tables.length := by
              by_contra hge
              push_neg at hge
              rw [List.getElem?_eq_none hge] at hm
              exact absurd hm (by simp)
            have hget := List.getElem?_set_self (l := tables) (a := t') hlt
            simp only [teItemAtPath, hget, hm]
            exact ih i j p q (.table t) (.table t') _ n st fp hij hitem
      | value v =>
        cases v with
        | arr elems =>
          simp only [set_toml_string_in_item] at h
          cases hm : elems[m]? with
          | none => simp only [hm] at h; exact absurd h (by simp)
          | some child =>
            simp only [hm] at h
            cases hrec : set_toml_string_in_value child
                (base' ++ .index i :: p) n st fp with
            | error e => simp only [hrec] at h; exact absurd h (by simp)
            | ok pair =>
              obtain ⟨c', child'⟩ := pair
              simp only [hrec, Except.ok.injEq, Prod.mk.injEq] at h
              obtain ⟨rfl, rfl⟩ := h
              have hlt : m < elems.length := by
                by_contra hge
                push_neg at hge
                rw [List.getElem?_eq_none hge] at hm
                exact absurd hm (by simp)
              have hget := List.getElem?_set_self (l := elems) (a := child')
                hlt
              simp only [teItemAtPath, teValueAtPath, hget, hm]
              rw [set_toml_value_preserves_sibling base' i j p q child
                child' _ n st fp hij hrec]
        | str s => simp [set_toml_string_in_item] at h
        | int mm => simp [set_toml_string_in_item] at h
        | float => simp [set_toml_string_in_item] at h
        | bool b => simp [set_toml_string_in_item] at h
        | datetime s => simp [set_toml_string_in_item] at h
        | inlineTable fields => simp [set_toml_string_in_item] at h
      | none => simp [set_toml_string_in_item] at h
      | table fields => simp [set_toml_string_in_item] at h

/-- C4: a `Filter` qualifier over a well-shaped array (every element a
mapping, every present filter field a string) contributes exactly the
child paths `childPath + Index(i)` for the indices `i` whose element has
the field present and string-equal to the value — zero, one or many —
silently skipping elements lacking the field (both formats); and a
mutation through one matched index never changes any value reachable
through a different index of the same array, in the JSON tree and in the
syntax-aware TOML tree alike. -/
theorem filter_fanout_exact :
    (∀ (root : Json) (selText fileP key field value : String)
      (p : List PathStep) (node child : Json)
      (fields : List (String × Json)) (elems : List Json),
      json_value_at_path root p = some node → node.asObj = some fields →
      assocGet fields key = some child → child.asArr = some elems →
      (∀ e ∈ elems, ∃ fs, e.asObj = some fs ∧
        (∀ fv, assocGet fs field = some fv → ∃ s, fv.asStr = some s)) →
      jsonStepOne root selText fileP
        { key := key, qualifier := some (.filter field value) } p =
        .ok ((jsonFilterMatches field value elems).map
          (fun i => (p ++ [PathStep.key key]) ++ [.index i])))
    ∧ (∀ (root : Toml) (selText fileP key field value : String)
      (p : List PathStep) (node child : Toml)
      (fields : List (String × Toml)) (elems : List Toml),
      toml_value_at_path root p = some node → node.asTable = some fields →
      assocGet fields key = some child → child.asArr = some elems →
      (∀ e ∈ elems, ∃ fs, e.asTable = some fs ∧
        (∀ fv, assocGet fs field = some fv → ∃ s, fv.asStr = some s)) →
      tomlStepOne root selText fileP
        { key := key, qualifier := some (.filter field value) } p =
        .ok ((tomlFilterMatches field value elems).map
          (fun i => (p ++ [PathStep.key key]) ++ [.index i])))
    ∧ (∀ (base : List PathStep) (i j : Nat) (p q : List PathStep)
      (root root' : Json) (c : Bool) (n st fp : String), i ≠ j →
      set_json_string_at_path root (base ++ .index i :: p) n st fp =
        .ok (c, root') →
      json_value_at_path root' (base ++ .index j :: q) =
        json_value_at_path root (base ++ .index j :: q))
    ∧ (∀ (base : List PathStep) (i j : Nat) (p q : List PathStep)
      (item item' : TEItem) (c : Bool) (n st fp : String), i ≠ j →
      set_toml_string_at_path item (base ++ .index i :: p) n st fp =
        .ok (c, item') →
      teItemAtPath item' (base ++ .index j :: q) =
        teItemAtPath item (base ++ .index j :: q)) := by
  refine ⟨?_, ?_, set_json_preserves_sibling,
    set_toml_item_preserves_sibling⟩
  · intro root selText fileP key field value p node child fields elems
      h1 h2 h3 h4 hwt
    simp only [jsonStepOne, h1, h2, h3, h4,
      jsonFilterScan_wellTyped hwt 0, Nat.zero_add]
  · intro root selText fileP key field value p node child fields elems
      h1 h2 h3 h4 hwt
    simp only [tomlStepOne, h1, h2, h3, h4,
      tomlFilterScan_wellTyped hwt 0, Nat.zero_add]

/-- Witness for `filter_fanout_exact` at the spec's fan-out example: three
elements named `brel, other, brel` — exactly indices 0 and 2 match. -/
theorem filter_fanout_exact_witness :
    jsonStepOne
      (Json.obj [("package", Json.arr
        [Json.obj [("name", Json.str "brel"), ("version", Json.str "1.0.0")],
         Json.obj [("name", Json.str "other"), ("version", Json.str "2.0.0")],
         Json.obj [("name", Json.str "brel"), ("version", Json.str "3.0.0")]])])
      "package[name=brel].version" "package.json"
      { key := "package", qualifier := some (.filter "name" "brel") } [] =
      .ok [[PathStep.key "package", PathStep.index 0],
           [PathStep.key "package", PathStep.index 2]] := by
  have h := filter_fanout_exact.1
    (Json.obj [("package", Json.arr
      [Json.obj [("name", Json.str "brel"), ("version", Json.str "1.0.0")],
       Json.obj [("name", Json.str "other"), ("version", Json.str "2.0.0")],
       Json.obj [("name", Json.str "brel"), ("version", Json.str "3.0.0")]])])
    "package[name=brel].version" "package.json" "package" "name" "brel" []
    _ (Json.arr
      [Json.obj [("name", Json.str "brel"), ("version", Json.str "1.0.0")],
       Json.obj [("name", Json.str "other"), ("version", Json.str "2.0.0")],
       Json.obj [("name", Json.str "brel"), ("version", Json.str "3.0.0")]])
    _
    [Json.obj [("name", Json.str "brel"), ("version", Json.str "1.0.0")],
     Json.obj [("name", Json.str "other"), ("version", Json.str "2.0.0")],
     Json.obj [("name", Json.str "brel"), ("version", Json.str "3.0.0")]]
    rfl rfl rfl rfl ?hwt
  case hwt =>
    intro e he
    simp only [List.mem_cons, List.not_mem_nil, or_false] at he
    rcases he with rfl | rfl | rfl
    · refine ⟨_, rfl, fun fv hfv => ?_⟩
      simp [assocGet] at hfv
      subst hfv
      exact ⟨_, rfl⟩
    · refine ⟨_, rfl, fun fv hfv => ?_⟩
      simp [assocGet] at hfv
      subst hfv
      exact ⟨_, rfl⟩
    · refine ⟨_, rfl, fun fv hfv => ?_⟩
      simp [assocGet] at hfv
      subst hfv
      exact ⟨_, rfl⟩
  exact h

/-! ## Claim C5 -/

/-- C5 counterexample: mutation can change what a `Filter` matches.  With
selector `pkgs[version=1.0.0].version` and target `2.0.0`, the first
application updates the matched leaf (changed = true), but the second
application fails with the "matched no values" error instead of returning
`changed = false` with byte-identical output — the claimed unconditional
file-level idempotence is false. -/
theorem reapplication_can_fail :
    updateJsonSelectors
      (Json.obj [("pkgs",
        Json.arr [Json.obj [("version", Json.str "1.0.0")]])])
      [("pkgs[version=1.0.0].version",
        { segments :=
          [{ key := "pkgs", qualifier := some (.filter "version" "1.0.0") },
           { key := "version", qualifier := none }] })]
      "2.0.0" "f" false =
      .ok (true, Json.obj [("pkgs",
        Json.arr [Json.obj [("version", Json.str "2.0.0")]])]) ∧
    updateJsonSelectors
      (Json.obj [("pkgs",
        Json.arr [Json.obj [("version", Json.str "2.0.0")]])])
      [("pkgs[version=1.0.0].version",
        { segments :=
          [{ key := "pkgs", qualifier := some (.filter "version" "1.0.0") },
           { key := "version", qualifier := none }] })]
      "2.0.0" "f" false =
      .error (noMatchMsg "pkgs[version=1.0.0].version" "f") := by
  constructor <;> rfl

/-- A resolved JSON leaf already equal to the target: `changed = false`
and the tree is returned untouched. -/
theorem set_json_leaf_already_equal :
    ∀ (root : Json) (path : List PathStep) (next st fp : String),
    json_value_at_path root path = some (.str next) →
    set_json_string_at_path root path next st fp = .ok (false, root) := by
  intro root path
  induction path generalizing root with
  | nil =>
    intro next st fp h
    simp only [json_value_at_path, Option.some.injEq] at h
    subst h
    simp [set_json_string_at_path, Json.asStr]
  | cons step rest ih =>
    intro next st fp h
    cases step with
    | key k =>
      simp only [json_value_at_path] at h
      cases hobj : root.asObj with
      | none => simp only [hobj] at h; exact absurd h (by simp)
      | some fields =>
        simp only [hobj] at h
        obtain rfl := Json.asObj_eq hobj
        cases hg : assocGet fields k with
        | none => simp only [hg] at h; exact absurd h (by simp)
        | some child =>
          simp only [hg] at h
          simp only [set_json_string_at_path, Json.asObj, hg, ih child next st fp h,
            assocSet_self hg]
    | index i =>
      simp only [json_value_at_path] at h
      cases harr : root.asArr with
      | none => simp only [harr] at h; exact absurd h (by simp)
      | some elems =>
        simp only [harr] at h
        obtain rfl := Json.asArr_eq harr
        cases hm : elems[i]? with
        | none => simp only [hm] at h; exact absurd h (by simp)
        | some child =>
          simp only [hm] at h
          simp only [set_json_string_at_path, Json.asArr, hm, ih child next st fp h,
            listSet_self hm]

/-- `set_toml_string_in_item` on a `Value` item computes exactly
`set_toml_string_in_value` on the value, rewrapped. -/
theorem set_toml_item_value_eq (v : TEValue) (path : List PathStep)
    (n st fp : String) :
    set_toml_string_in_item (.value v) path n st fp =
      match set_toml_string_in_value v path n st fp with
      | .error e => .error e
      | .ok (c, v') => .ok (c, .value v') := by
  cases path with
  | nil => rfl
  | cons step rest =>
    cases step with
    | key k =>
      cases v with
      | inlineTable fields =>
        simp only [set_toml_string_in_item, set_toml_string_in_value]
        cases assocGet fields k with
        | none => simp
        | some child =>
          cases hc : set_toml_string_in_value child rest n st fp with
          | error e => simp [hc]
          | ok pair => obtain ⟨c, child'⟩ := pair; simp [hc]
      | str s => simp [set_toml_string_in_item, set_toml_string_in_value]
      | int m => simp [set_toml_string_in_item, set_toml_string_in_value]
      | float => simp [set_toml_string_in_item, set_toml_string_in_value]
      | bool b => simp [set_toml_string_in_item, set_toml_string_in_value]
      | datetime s => simp [set_toml_string_in_item, set_toml_string_in_value]
      | arr elems => simp [set_toml_string_in_item, set_toml_string_in_value]
    | index i =>
      cases v with
      | arr elems =>
        simp only [set_toml_string_in_item, set_toml_string_in_value]
        cases elems[i]? with
        | none => simp
        | some child =>
          cases hc : set_toml_string_in_value child rest n st fp with
          | error e => simp [hc]
          | ok pair => obtain ⟨c, child'⟩ := pair; simp [hc]
      | str s => simp [set_toml_string_in_item, set_toml_string_in_value]
      | int m => simp [set_toml_string_in_item, set_toml_string_in_value]
      | float => simp [set_toml_string_in_item, set_toml_string_in_value]
      | bool b => simp [set_toml_string_in_item, set_toml_string_in_value]
      | datetime s => simp [set_toml_string_in_item, set_toml_string_in_value]
      | inlineTable fields =>
        simp [set_toml_string_in_item, set_toml_string_in_value]

/-- A `toml_edit` value leaf already equal to the target: `changed = false`
and the value is returned untouched. -/
theorem set_toml_value_leaf_already_equal :
    ∀ (v : TEValue) (path : List PathStep) (next st fp : String),
    teValueAtPath v path = some (.str next) →
    set_toml_string_in_value v path next st fp = .ok (false, v) := by
  intro v path
  induction path generalizing v with
  | nil =>
    intro next st fp h
    simp only [teValueAtPath, Option.some.injEq] at h
    subst h
    simp [set_toml_string_in_value, TEValue.asStr]
  | cons step rest ih =>
    intro next st fp h
    cases step with
    | key k =>
      cases v with
      | inlineTable fields =>
        simp only [teValueAtPath] at h
        cases hg : assocGet fields k with
        | none => simp only [hg] at h; exact absurd h (by simp)
        | some child =>
          simp only [hg] at h
          simp only [set_toml_string_in_value, hg, ih child next st fp h,
            assocSet_self hg]
      | str s => simp [teValueAtPath] at h
      | int m => simp [teValueAtPath] at h
      | float => simp [teValueAtPath] at h
      | bool b => simp [teValueAtPath] at h
      | datetime s => simp [teValueAtPath] at h
      | arr elems => simp [teValueAtPath] at h
    | index i =>
      cases v with
      | arr elems =>
        simp only [teValueAtPath] at h
        cases hm : elems[i]? with
        | none => simp only [hm] at h; exact absurd h (by simp)
        | some child =>
          simp only [hm] at h
          simp only [set_toml_string_in_value, hm, ih child next st fp h,
            listSet_self hm]
      | str s => simp [teValueAtPath] at h
      | int m => simp [teValueAtPath] at h
      | float => simp [teValueAtPath] at h
      | bool b => simp [teValueAtPath] at h
      | datetime s => simp [teValueAtPath] at h
      | inlineTable fields => simp [teValueAtPath] at h

/-- After a successful `set_toml_string_in_value`, the leaf at the path
holds the target string. -/
theorem set_toml_value_after_set :
    ∀ (v : TEValue) (path : List PathStep) (next st fp : String) (c : Bool)
      (v' : TEValue),
    set_toml_string_in_value v path next st fp = .ok (c, v') →
    teValueAtPath v' path = some (.str next) := by
  intro v path
  induction path generalizing v with
  | nil =>
    intro next st fp c v' h
    simp only [set_toml_string_in_value] at h
    cases hs : v.asStr with
    | none => simp only [hs] at h; exact absurd h (by simp)
    | some s =>
      simp only [hs] at h
      by_cases hv : s = next
      · rw [if_pos hv] at h
        simp only [Except.ok.injEq, Prod.mk.injEq] at h
        obtain ⟨rfl, rfl⟩ := h
        obtain rfl := TEValue.asStr_eq hs
        simp [teValueAtPath, hv]
      · rw [if_neg hv] at h
        simp only [Except.ok.injEq, Prod.mk.injEq] at h
        obtain ⟨rfl, rfl⟩ := h
        simp [teValueAtPath]
  | cons step rest ih =>
    intro next st fp c v' h
    cases step with
    | key k =>
      cases v with
      | inlineTable fields =>
        simp only [set_toml_string_in_value] at h
        cases hg : assocGet fields k with
        | none => simp only [hg] at h; exact absurd h (by simp)
        | some child =>
          simp only [hg] at h
          cases hrec : set_toml_string_in_value child rest next st fp with
          | error e => simp only [hrec] at h; exact absurd h (by simp)
          | ok pair =>
            obtain ⟨c', child'⟩ := pair
            simp only [hrec, Except.ok.injEq, Prod.mk.injEq] at h
            obtain ⟨rfl, rfl⟩ := h
            have hset := assocGet_set_eq (l := fields) (k := k) child'
              (by simp [hg])
            simp only [teValueAtPath, hset]
            exact ih child next st fp _ child' hrec
      | str s => simp [set_toml_string_in_value] at h
      | int m => simp [set_toml_string_in_value] at h
      | float => simp [set_toml_string_in_value] at h
      | bool b => simp [set_toml_string_in_value] at h
      | datetime s => simp [set_toml_string_in_value] at h
      | arr elems => simp [set_toml_string_in_value] at h
    | index i =>
      cases v with
      | arr elems =>
        simp only [set_toml_string_in_value] at h
        cases hm : elems[i]? with
        | none => simp only [hm] at h; exact absurd h (by simp)
        | some child =>
          simp only [hm] at h
          cases hrec : set_toml_string_in_value child rest next st fp with
          | error e => simp only [hrec] at h; exact absurd h (by simp)
          | ok pair =>
            obtain ⟨c', child'⟩ := pair
            simp only [hrec, Except.ok.injEq, Prod.mk.injEq] at h
            obtain ⟨rfl, rfl⟩ := h
            have hlt : i < elems.length := by
              by_contra hge
              push_neg at hge
              rw [List.getElem?_eq_none hge] at hm
              exact absurd hm (by simp)
            have hget := List.getElem?_set_self (l := elems) (a := child') hlt
            simp only [teValueAtPath, hget]
            exact ih child next st fp _ child' hrec
      | str s => simp [set_toml_string_in_value] at h
      | int m => simp [set_toml_string_in_value] at h
      | float => simp [set_toml_string_in_value] at h
      | bool b => simp [set_toml_string_in_value] at h
      | datetime s => simp [set_toml_string_in_value] at h
      | inlineTable fields => simp [set_toml_string_in_value] at h

/-- A `toml_edit` item whose leaf at the path already equals the target:
`changed = false` and the item is returned untouched. -/
theorem set_toml_item_leaf_already_equal :
    ∀ (item : TEItem) (path : List PathStep) (next st fp : String),
    teItemAtPath item path = some (.value (.str next)) →
    set_toml_string_at_path item path next st fp = .ok (false, item) := by
  intro item path
  induction path generalizing item with
  | nil =>
    intro next st fp h
    simp only [teItemAtPath, Option.some.injEq] at h
    subst h
    simp [set_toml_string_at_path, set_toml_string_in_item,
      set_toml_string_in_value, TEValue.asStr]
  | cons step rest ih =>
    intro next st fp h
    cases item with
    | value v =>
      simp only [teItemAtPath] at h
      cases hv : teValueAtPath v (step :: rest) with
      | none => simp only [hv] at h; exact absurd h (by simp)
      | some v0 =>
        simp only [hv, Option.some.injEq, TEItem.value.injEq] at h
        subst h
        have hval := set_toml_value_leaf_already_equal v (step :: rest)
          next st fp hv
        simp only [set_toml_string_at_path, set_toml_item_value_eq, hval]
    | table fields =>
      cases step with
      | key k =>
        simp only [teItemAtPath] at h
        cases hg : assocGet fields k with
        | none => simp only [hg] at h; exact absurd h (by simp)
        | some child =>
          simp only [hg] at h
          have hchild := ih child next st fp h
          simp only [set_toml_string_at_path] at hchild ⊢
          simp only [set_toml_string_in_item, hg, hchild, assocSet_self hg]
      | index i => simp [teItemAtPath] at h
    | arrayOfTables tables =>
      cases step with
      | key k => simp [teItemAtPath] at h
      | index i =>
        simp only [teItemAtPath] at h
        cases hm : tables[i]? with
        | none => simp only [hm] at h; exact absurd h (by simp)
        | some t =>
          simp only [hm] at h
          have htab := ih (.table t) next st fp h
          simp only [set_toml_string_at_path] at htab ⊢
          rw [set_toml_item_table_eq] at htab
          have htab' : set_toml_string_in_table t rest next st fp =
              .ok (false, t) := by
            cases hrec : set_toml_string_in_table t rest next st fp with
            | error e => rw [hrec] at htab; exact absurd htab (by simp)
            | ok pair =>
              obtain ⟨c0, f0⟩ := pair
              rw [hrec] at htab
              simp only [Except.ok.injEq, Prod.mk.injEq,
                TEItem.table.injEq] at htab
              obtain ⟨rfl, rfl⟩ := htab
              rfl
          simp only [set_toml_string_in_item, hm, htab', listSet_self hm]
    | none => simp [teItemAtPath] at h

/-- After a successful `set_toml_string_in_item`, the leaf at the path
holds the target string. -/
theorem set_toml_item_after_set :
    ∀ (item : TEItem) (path : List PathStep) (next st fp : String)
      (c : Bool) (item' : TEItem),
    set_toml_string_at_path item path next st fp = .ok (c, item') →
    teItemAtPath item' path = some (.value (.str next)) := by
  intro item path
  induction path generalizing item with
  | nil =>
    intro next st fp c item' h
    simp only [set_toml_string_at_path] at h
    cases item with
    | value v =>
      rw [set_toml_item_value_eq] at h
      cases hrec : set_toml_string_in_value v [] next st fp with
      | error e => rw [hrec] at h; exact absurd h (by simp)
      | ok pair =>
        obtain ⟨c0, v0⟩ := pair
        rw [hrec] at h
        simp only [Except.ok.injEq, Prod.mk.injEq] at h
        obtain ⟨rfl, rfl⟩ := h
        have := set_toml_value_after_set v [] next st fp _ v0 hrec
        simp only [teValueAtPath, Option.some.injEq] at this
        subst this
        simp [teItemAtPath]
    | none => simp [set_toml_string_in_item] at h
    | table fields => simp [set_toml_string_in_item] at h
    | arrayOfTables tables => simp [set_toml_string_in_item] at h
  | cons step rest ih =>
    intro next st fp c item' h
    simp only [set_toml_string_at_path] at h
    cases item with
    | value v =>
      rw [set_toml_item_value_eq] at h
      cases hrec : set_toml_string_in_value v (step :: rest) next st fp with
      | error e => rw [hrec] at h; exact absurd h (by simp)
      | ok pair =>
        obtain ⟨c0, v0⟩ := pair
        rw [hrec] at h
        simp only [Except.ok.injEq, Prod.mk.injEq] at h
        obtain ⟨rfl, rfl⟩ := h
        have hafter := set_toml_value_after_set v (step :: rest) next st fp
          _ v0 hrec
        simp only [teItemAtPath, hafter]
    | table fields =>
      cases step with
      | key k =>
        simp only [set_toml_string_in_item] at h
        cases hg : assocGet fields k with
        | none => simp only [hg] at h; exact absurd h (by simp)
        | some child =>
          simp only [hg] at h
          cases hrec : set_toml_string_in_item child rest next st fp with
          | error e => simp only [hrec] at h; exact absurd h (by simp)
          | ok pair =>
            obtain ⟨c0, child'⟩ := pair
            simp only [hrec, Except.ok.injEq, Prod.mk.injEq] at h
            obtain ⟨rfl, rfl⟩ := h
            have hset := assocGet_set_eq (l := fields) (k := k) child'
              (by simp [hg])
            simp only [teItemAtPath, hset]
            exact ih child next st fp _ child'
              (by simpa [set_toml_string_at_path] using hrec)
      | index i => simp [set_toml_string_in_item] at h
    | arrayOfTables tables =>
      cases step with
      | key k => simp [set_toml_string_in_item] at h
      | index i =>
        simp only [set_toml_string_in_item] at h
        cases hm : tables[i]? with
        | none => simp only [hm] at h; exact absurd h (by simp)
        | some t =>
          simp only [hm] at h
          cases hrec : set_toml_string_in_table t rest next st fp with
          | error e => simp only [hrec] at h; exact absurd h (by simp)
          | ok pair =>
            obtain ⟨c0, t'⟩ := pair
            simp only [hrec, Except.ok.injEq, Prod.mk.injEq] at h
            obtain ⟨rfl, rfl⟩ := h
            have hitem : set_toml_string_at_path (.table t) rest next st fp =
                .ok (c0, .table t') := by
              simp only [set_toml_string_at_path]
              rw [set_toml_item_table_eq, hrec]
            have hlt : i < tables.length := by
              by_contra hge
              push_neg at hge
              rw [List.getElem?_eq_none hge] at hm
              exact absurd hm (by simp)
            have hget := List.getElem?_set_self (l := tables) (a := t') hlt
            simp only [teItemAtPath, hget]
            exact ih (.table t) next st fp _ (.table t') hitem
    | none => cases step <;> simp [set_toml_string_in_item] at h

/-- Re-applying the TOML item mutator at the same path reports no change
and returns the identical tree. -/
theorem set_toml_item_reapply :
    ∀ (item : TEItem) (path : List PathStep) (next st fp : String)
      (c : Bool) (item' : TEItem),
    set_toml_string_at_path item path next st fp = .ok (c, item') →
    set_toml_string_at_path item' path next st fp = .ok (false, item') := by
  intro item path next st fp c item' h
  exact set_toml_item_leaf_already_equal item' path next st fp
    (set_toml_item_after_set item path next st fp c item' h)

/-- C5 (amended): mutation itself is idempotent, for both formats.  A
resolved leaf already equal to the target yields `changed = false` and an
untouched tree (the JSON mutator, the TOML value mutator, and the full
TOML item mutator with its table / array-of-tables / inline-table
branches); re-applying the same mutator at the same path yields
`changed = false` and the identical tree (JSON and TOML item level); and a
selector all of whose resolved leaves already equal the target leaves the
whole per-file update unchanged (`changed = false`, tree untouched) for
JSON and TOML alike, so the file is excluded from the report.  Re-applying
a whole file update is only guaranteed idempotent when the selectors
resolve to the same paths on the second pass — a filter whose field is
itself the updated leaf can change resolution and even make the second
application fail (see the counterexample). -/
theorem mutation_idempotent :
    (∀ (root : Json) (path : List PathStep) (next st fp : String),
      json_value_at_path root path = some (.str next) →
      set_json_string_at_path root path next st fp = .ok (false, root))
    ∧ (∀ (root : Json) (path : List PathStep) (next st fp : String)
      (c : Bool) (root' : Json),
      set_json_string_at_path root path next st fp = .ok (c, root') →
      set_json_string_at_path root' path next st fp = .ok (false, root'))
    ∧ (∀ (v : TEValue) (path : List PathStep) (next st fp : String)
      (c : Bool) (v' : TEValue),
      set_toml_string_in_value v path next st fp = .ok (c, v') →
      set_toml_string_in_value v' path next st fp = .ok (false, v'))
    ∧ (∀ (root : Json) (selText : String) (selector : VersionSelector)
      (fp next : String) (paths : List (List PathStep)),
      resolve_json_paths root selText selector fp = .ok paths →
      (∀ p ∈ paths, json_value_at_path root p = some (.str next)) →
      updateJsonSelectors root [(selText, selector)] next fp false =
        .ok (false, root))
    ∧ (∀ (v : TEValue) (path : List PathStep) (next st fp : String),
      teValueAtPath v path = some (.str next) →
      set_toml_string_in_value v path next st fp = .ok (false, v))
    ∧ (∀ (item : TEItem) (path : List PathStep) (next st fp : String),
      teItemAtPath item path = some (.value (.str next)) →
      set_toml_string_at_path item path next st fp = .ok (false, item))
    ∧ (∀ (item : TEItem) (path : List PathStep) (next st fp : String)
      (c : Bool) (item' : TEItem),
      set_toml_string_at_path item path next st fp = .ok (c, item') →
      set_toml_string_at_path item' path next st fp = .ok (false, item'))
    ∧ (∀ (source : Toml) (doc : TEItem) (selText : String)
      (selector : VersionSelector) (fp next : String)
      (paths : List (List PathStep)),
      resolve_toml_paths source selText selector fp = .ok paths →
      (∀ p ∈ paths, teItemAtPath doc p = some (.value (.str next))) →
      updateTomlSelectors source doc [(selText, selector)] next fp false =
        .ok (false, doc)) := by
  refine ⟨set_json_leaf_already_equal, ?_, ?_, ?_,
    set_toml_value_leaf_already_equal, set_toml_item_leaf_already_equal,
    set_toml_item_reapply, ?_⟩
  · intro root path
    induction path generalizing root with
    | nil =>
      intro next st fp c root' h
      simp only [set_json_string_at_path] at h ⊢
      cases hs : root.asStr with
      | none => simp only [hs] at h; exact absurd h (by simp)
      | some s =>
        simp only [hs] at h
        by_cases hv : s = next
        · rw [if_pos hv] at h
          simp only [Except.ok.injEq, Prod.mk.injEq] at h
          obtain ⟨rfl, rfl⟩ := h
          simp [hs, if_pos hv]
        · rw [if_neg hv] at h
          simp only [Except.ok.injEq, Prod.mk.injEq] at h
          obtain ⟨rfl, rfl⟩ := h
          simp [Json.asStr]
    | cons step rest ih =>
      intro next st fp c root' h
      cases step with
      | key k =>
        simp only [set_json_string_at_path] at h ⊢
        cases hobj : root.asObj with
        | none => rw [hobj] at h; exact absurd h (by simp)
        | some fields =>
          simp only [hobj] at h
          cases hg : assocGet fields k with
          | none => simp only [hg] at h; exact absurd h (by simp)
          | some child =>
            simp only [hg] at h
            cases hrec : set_json_string_at_path child rest next st fp with
            | error e => simp only [hrec] at h; exact absurd h (by simp)
            | ok pair =>
              obtain ⟨c', child'⟩ := pair
              simp only [hrec, Except.ok.injEq, Prod.mk.injEq] at h
              obtain ⟨rfl, rfl⟩ := h
              have hset := assocGet_set_eq (l := fields) (k := k) child'
                (by simp [hg])
              simp only [Json.asObj, hset,
                ih child next st fp c' child' hrec, assocSet_self hset]
      | index i =>
        simp only [set_json_string_at_path] at h ⊢
        cases harr : root.asArr with
        | none => rw [harr] at h; exact absurd h (by simp)
        | some elems =>
          simp only [harr] at h
          cases hm : elems[i]? with
          | none => simp only [hm] at h; exact absurd h (by simp)
          | some child =>
            simp only [hm] at h
            cases hrec : set_json_string_at_path child rest next st fp with
            | error e => simp only [hrec] at h; exact absurd h (by simp)
            | ok pair =>
              obtain ⟨c', child'⟩ := pair
              simp only [hrec, Except.ok.injEq, Prod.mk.injEq] at h
              obtain ⟨rfl, rfl⟩ := h
              have hlt : i < elems.length := by
                by_contra hge
                push_neg at hge
                rw [List.getElem?_eq_none hge] at hm
                exact absurd hm (by simp)
              have hget := List.getElem?_set_self (l := elems) (a := child')
                hlt
              simp only [Json.asArr, hget,
                ih child next st fp c' child' hrec, listSet_self hget]
  · intro v path
    induction path generalizing v with
    | nil =>
      intro next st fp c v' h
      simp only [set_toml_string_in_value] at h ⊢
      cases hs : v.asStr with
      | none => simp only [hs] at h; exact absurd h (by simp)
      | some s =>
        simp only [hs] at h
        by_cases hv : s = next
        · rw [if_pos hv] at h
          simp only [Except.ok.injEq, Prod.mk.injEq] at h
          obtain ⟨rfl, rfl⟩ := h
          simp [hs, if_pos hv]
        · rw [if_neg hv] at h
          simp only [Except.ok.injEq, Prod.mk.injEq] at h
          obtain ⟨rfl, rfl⟩ := h
          simp [TEValue.asStr]
    | cons step rest ih =>
      intro next st fp c v' h
      cases step with
      | key k =>
        cases v with
        | inlineTable fields =>
          simp only [set_toml_string_in_value] at h
          cases hg : assocGet fields k with
          | none => simp only [hg] at h; exact absurd h (by simp)
          | some child =>
            simp only [hg] at h
            cases hrec : set_toml_string_in_value child rest next st fp with
            | error e => simp only [hrec] at h; exact absurd h (by simp)
            | ok pair =>
              obtain ⟨c', child'⟩ := pair
              simp only [hrec, Except.ok.injEq, Prod.mk.injEq] at h
              obtain ⟨rfl, rfl⟩ := h
              have hset := assocGet_set_eq (l := fields) (k := k) child'
                (by simp [hg])
              simp only [set_toml_string_in_value, hset,
                ih child next st fp c' child' hrec, assocSet_self hset]
        | str s => simp [set_toml_string_in_value] at h
        | int n => simp [set_toml_string_in_value] at h
        | float => simp [set_toml_string_in_value] at h
        | bool b => simp [set_toml_string_in_value] at h
        | datetime s => simp [set_toml_string_in_value] at h
        | arr elems => simp [set_toml_string_in_value] at h
      | index i =>
        cases v with
        | arr elems =>
          simp only [set_toml_string_in_value] at h
          cases hm : elems[i]? with
          | none => simp only [hm] at h; exact absurd h (by simp)
          | some child =>
            simp only [hm] at h
            cases hrec : set_toml_string_in_value child rest next st fp with
            | error e => simp only [hrec] at h; exact absurd h (by simp)
            | ok pair =>
              obtain ⟨c', child'⟩ := pair
              simp only [hrec, Except.ok.injEq, Prod.mk.injEq] at h
              obtain ⟨rfl, rfl⟩ := h
              have hlt : i < elems.length := by
                by_contra hge
                push_neg at hge
                rw [List.getElem?_eq_none hge] at hm
                exact absurd hm (by simp)
              have hget := List.getElem?_set_self (l := elems) (a := child')
                hlt
              simp only [set_toml_string_in_value, hget,
                ih child next st fp c' child' hrec, listSet_self hget]
        | str s => simp [set_toml_string_in_value] at h
        | int n => simp [set_toml_string_in_value] at h
        | float => simp [set_toml_string_in_value] at h
        | bool b => simp [set_toml_string_in_value] at h
        | datetime s => simp [set_toml_string_in_value] at h
        | inlineTable fields => simp [set_toml_string_in_value] at h
  · intro root selText selector fp next paths hres hall
    have happly : ∀ (P : List (List PathStep)) (ch : Bool),
        (∀ p ∈ P, json_value_at_path root p = some (.str next)) →
        applyJsonPaths root P next selText fp ch = .ok (ch, root) := by
      intro P
      induction P with
      | nil => intro ch _; simp [applyJsonPaths]
      | cons p ps ihp =>
        intro ch hmem
        have hp := hmem p (List.mem_cons_self p ps)
        have hset : set_json_string_at_path root p next selText fp =
            .ok (false, root) :=
          set_json_leaf_already_equal root p next selText fp hp
        simp only [applyJsonPaths, hset, Bool.or_false]
        exact ihp ch (fun q hq => hmem q (List.mem_cons_of_mem p hq))
    simp only [updateJsonSelectors, hres, happly paths false hall]
  · intro source doc selText selector fp next paths hres hall
    have happly : ∀ (P : List (List PathStep)) (d : TEItem) (ch : Bool),
        (∀ p ∈ P, teItemAtPath d p = some (.value (.str next))) →
        applyTomlPaths d P next selText fp ch = .ok (ch, d) := by
      intro P
      induction P with
      | nil => intro d ch _; simp [applyTomlPaths]
      | cons p ps ihp =>
        intro d ch hmem
        have hp := hmem p (List.mem_cons_self p ps)
        have hset : set_toml_string_at_path d p next selText fp =
            .ok (false, d) :=
          set_toml_item_leaf_already_equal d p next selText fp hp
        simp only [applyTomlPaths, hset, Bool.or_false]
        exact ihp d ch (fun q hq => hmem q (List.mem_cons_of_mem p hq))
    simp only [updateTomlSelectors, hres, happly paths doc false hall]

/-- Witness for `mutation_idempotent` at concrete inputs: the leaf already
holds the target, so both the raw mutator and the per-file update report
no change and an untouched tree. -/
theorem mutation_idempotent_witness :
    set_json_string_at_path (Json.obj [("version", Json.str "1.0.0")])
      [PathStep.key "version"] "1.0.0" "version" "f" =
      .ok (false, Json.obj [("version", Json.str "1.0.0")]) ∧
    updateJsonSelectors (Json.obj [("version", Json.str "1.0.0")])
      [("version", { segments := [{ key := "version", qualifier := none }] })]
      "1.0.0" "f" false =
      .ok (false, Json.obj [("version", Json.str "1.0.0")]) ∧
    set_toml_string_at_path
      (TEItem.table [("package",
        TEItem.table [("version", TEItem.value (TEValue.str "1.1.0"))])])
      [PathStep.key "package", PathStep.key "version"] "1.1.0"
      "package.version" "Cargo.toml" =
      .ok (false, TEItem.table [("package",
        TEItem.table [("version", TEItem.value (TEValue.str "1.1.0"))])]) := by
  refine ⟨?_, ?_, ?_⟩
  · exact mutation_idempotent.1 (Json.obj [("version", Json.str "1.0.0")])
      [PathStep.key "version"] "1.0.0" "version" "f" rfl
  · refine mutation_idempotent.2.2.2.1
      (Json.obj [("version", Json.str "1.0.0")]) "version"
      { segments := [{ key := "version", qualifier := none }] } "f" "1.0.0"
      [[PathStep.key "version"]] rfl ?_
    intro p hp
    simp only [List.mem_cons, List.not_mem_nil, or_false] at hp
    subst hp
    rfl
  · exact mutation_idempotent.2.2.2.2.2.1
      (TEItem.table [("package",
        TEItem.table [("version", TEItem.value (TEValue.str "1.1.0"))])])
      [PathStep.key "package", PathStep.key "version"] "1.1.0"
      "package.version" "Cargo.toml" rfl

/-! ## Claim C6 -/

/-- Processing one file never touches any other path of the file system. -/
theorem processFile_fsGet_ne (E : Codecs) (fs : FS) (n : String)
    (o : List (String × VersionFileFormat)) (r : String) (s : List String)
    {q : String} (h : r ≠ q) :
    fsGet ((processFile E fs n o r s).1) q = fsGet fs q := by
  rcases processFile_cases E fs n o r s with h1 | ⟨out, hout⟩
  · rw [h1]
  · rw [hout]
    exact fsGet_fsWrite_ne h

/-- C6: the orchestrator iterates the configured files in lexicographic
order of relative path (the `BTreeMap` order) and the first error aborts
the whole call: with three sorted files where the first succeeds and the
second errors, the call returns the second file's error together with the
file system as the first file left it (its write persists, nothing is
rolled back) and the third file is never written. -/
theorem orchestrator_order_and_abort (E : Codecs) (fs : FS) (n : String)
    (o : List (String × VersionFileFormat)) (p1 p2 p3 : String)
    (s1 s2 s3 : List String) (fs1 : FS) (c1 : Bool) (e : String)
    (h12 : p1 < p2) (h23 : p2 < p3)
    (h1 : processFile E fs n o p1 s1 = (fs1, .ok c1))
    (h2 : (processFile E fs1 n o p2 s2).2 = .error e) :
    apply_version_updates E fs n [(p1, s1), (p2, s2), (p3, s3)] o =
      (fs1, .error e) ∧
    fsGet fs1 p3 = fsGet fs p3 := by
  have hfs2 : (processFile E fs1 n o p2 s2).1 = fs1 := by
    rcases processFile_cases E fs1 n o p2 s2 with hh | ⟨out, hout⟩
    · exact hh
    · rw [hout] at h2
      exact absurd h2 (by simp)
  have h2' : processFile E fs1 n o p2 s2 = (fs1, .error e) :=
    Prod.ext hfs2 h2
  have hsorted : sortByKey [(p1, s1), (p2, s2), (p3, s3)] =
      [(p1, s1), (p2, s2), (p3, s3)] := by
    simp [sortByKey, insertByKey, le_of_lt h12, le_of_lt h23]
  constructor
  · unfold apply_version_updates
    rw [hsorted]
    simp only [applyFilesAux, h1, h2']
  · have hfst : (processFile E fs n o p1 s1).1 = fs1 := by rw [h1]
    rw [← hfst]
    exact processFile_fsGet_ne E fs n o p1 s1 (ne_of_lt (h12.trans h23))

/-- External codecs whose JSON parser always yields
`{"version": "1.0.0"}`; enough to drive a successful JSON update. -/
def constJsonCodecs : Codecs where
  parseJson := fun _ => some (Json.obj [("version", Json.str "1.0.0")])
  printJson := fun _ => "PRINTED"
  parseToml := fun _ => none
  parseTomlEdit := fun _ => none
  printTomlEdit := fun _ => ""

/-- Witness for `orchestrator_order_and_abort`: `a.json` is updated and
written, the missing `b.json` errors, `c.json` stays untouched. -/
theorem orchestrator_order_and_abort_witness :
    apply_version_updates constJsonCodecs
      [("a.json", "A"), ("c.json", "C")] "2.0.0"
      [("a.json", ["version"]), ("b.json", ["version"]),
       ("c.json", ["version"])] [] =
      ([("a.json", "PRINTED\n"), ("c.json", "C")],
        .error "Configured version update file `b.json` was not found.") ∧
    fsGet [("a.json", "PRINTED\n"), ("c.json", "C")] "c.json" =
      fsGet [("a.json", "A"), ("c.json", "C")] "c.json" :=
  orchestrator_order_and_abort constJsonCodecs
    [("a.json", "A"), ("c.json", "C")] "2.0.0" [] "a.json" "b.json" "c.json"
    ["version"] ["version"] ["version"]
    [("a.json", "PRINTED\n"), ("c.json", "C")] true
    "Configured version update file `b.json` was not found."
    (by rw [String.lt_iff_toList_lt]; decide)
    (by rw [String.lt_iff_toList_lt]; decide) rfl rfl

end Brel
